import Mathlib

/-!
# Boat detector utilities: geometric core

A shallow embedding of `Detector_Utils.cpp` (intersection over union, greedy
non-maxima suppression, annotation parsing) together with the properties
stated for it.

Conventions of the embedding:

* `int` values are mathematical integers; the `int` addition the repository
  itself performs on two areas wraps around at 32 bits (`intAdd`), while the
  arithmetic inside OpenCV (`cv::Rect`) is taken exact;
* `float` values are exact rationals extended with the IEEE special values
  `NaN`, `+inf`, `-inf`; rounding of finite results is not modelled, but the
  special results of a division by zero are;
* a run that reaches undefined behaviour yields `none`; a second embedding of
  the suppression (`nonMaximaSuppressionWith`) follows a compiled program
  through the undefined step.
-/

namespace BoatDetector

/-! ## Rectangles (`cv::Rect`) -/

/-- Integer rectangle `cv::Rect`: top-left corner, width and height. -/
structure Rect where
  x : Int
  y : Int
  width : Int
  height : Int
deriving DecidableEq

namespace Rect

/-- Modelled from the spec: `cv::Rect::area()` (OpenCV, not part of the
repository), "Area = width*height". -/
def area (r : Rect) : Int := r.width * r.height

/-- Modelled from the spec: `cv::Rect::br().y` (OpenCV), the y-coordinate of the
bottom-right corner. -/
def brY (r : Rect) : Int := r.y + r.height

/-- Modelled from the spec: `cv::Rect::empty()` (OpenCV): no positive extent. -/
def empty (r : Rect) : Bool := decide (r.width ≤ 0) || decide (r.height ≤ 0)

/-- Modelled from the spec: `rect1 & rect2` (OpenCV `operator&`), the
axis-aligned intersection, the all-zero rectangle when the two do not overlap. -/
def inter (a b : Rect) : Rect :=
  let x1 := max a.x b.x
  let y1 := max a.y b.y
  let w := min (a.x + a.width) (b.x + b.width) - x1
  let h := min (a.y + a.height) (b.y + b.height) - y1
  if w ≤ 0 ∨ h ≤ 0 then ⟨0, 0, 0, 0⟩ else ⟨x1, y1, w, h⟩

end Rect

/-! ## Float values -/

/-- Value of a C++ `float`: a finite number (kept exact) or an IEEE special. -/
inductive FloatVal where
  | nan
  | negInf
  | fin (q : ℚ)
  | posInf
deriving DecidableEq

namespace FloatVal

/-- IEEE division of two finite floats: `0/0` is `NaN`, `x/0` is an infinity. -/
def fdiv (x y : ℚ) : FloatVal :=
  if y = 0 then
    if x = 0 then nan else if 0 < x then posInf else negInf
  else fin (x / y)

/-- IEEE `a < b`; every comparison with `NaN` is false. -/
def lt : FloatVal → FloatVal → Bool
  | nan, _ => false
  | negInf, nan => false
  | negInf, negInf => false
  | negInf, fin _ => true
  | negInf, posInf => true
  | fin _, nan => false
  | fin _, negInf => false
  | fin a, fin b => decide (a < b)
  | fin _, posInf => true
  | posInf, _ => false

/-- IEEE `a > b`. -/
def gt (a b : FloatVal) : Bool := lt b a

/-- IEEE `a == b`; `NaN` is equal to nothing, itself included. -/
def eq : FloatVal → FloatVal → Bool
  | negInf, negInf => true
  | fin a, fin b => decide (a = b)
  | posInf, posInf => true
  | _, _ => false

/-- IEEE `a <= b`; every comparison with `NaN` is false. -/
def le : FloatVal → FloatVal → Bool
  | nan, _ => false
  | negInf, nan => false
  | negInf, _ => true
  | fin _, nan => false
  | fin _, negInf => false
  | fin a, fin b => decide (a ≤ b)
  | fin _, posInf => true
  | posInf, posInf => true
  | posInf, _ => false

end FloatVal

open FloatVal

/-! ## Intersection over union -/

/-- The `float intersection = (rect1 & rect2).area();` of the source. -/
def intersectionArea (rect1 rect2 : Rect) : ℚ := ((rect1.inter rect2).area : Int)

/-- Whether an integer is a value of the 32-bit `int`. -/
def fitsInt (n : Int) : Prop := -2147483648 ≤ n ∧ n ≤ 2147483647

instance (n : Int) : Decidable (fitsInt n) := by
  unfold fitsInt
  exact inferInstance

/-- Two's-complement reduction of an integer to the 32-bit `int`. -/
def wrap32 (n : Int) : Int := (n + 2147483648) % 4294967296 - 2147483648

/-- The `int` addition `rect1.area() + rect2.area()` of the source: the sum of
two `int` values wraps around at 32 bits.  An operand outside the `int` range is
no value of an `int`; it arises in the model only because `cv::Rect::area()` is
taken exact, and is then added exactly. -/
def intAdd (a b : Int) : Int :=
  if fitsInt a ∧ fitsInt b then wrap32 (a + b) else a + b

/-- The denominator `rect1.area() + rect2.area() - intersection`: an `int` sum
converted to `float`, minus the `float` intersection. -/
def unionArea (rect1 rect2 : Rect) : ℚ :=
  ((intAdd rect1.area rect2.area : Int) : ℚ) - intersectionArea rect1 rect2

/-- `Detector_Utils::intersectionOverUnion`. -/
def intersectionOverUnion (rect1 rect2 : Rect) : FloatVal :=
  fdiv (intersectionArea rect1 rect2) (unionArea rect1 rect2)

/-! ## Non-maxima suppression -/

/-- The `std::multimap<int, size_t>::emplace` of the source on the ordered
entry sequence: the new entry is placed after every entry whose key is not
greater (at the upper bound of its key). -/
def emplace (key : Int) (idx : Nat) : List (Int × Nat) → List (Int × Nat)
  | [] => [(key, idx)]
  | e :: es => if key < e.1 then (key, idx) :: e :: es else e :: emplace key idx es

/-- The loop `for (i = 0; i < pred_boxes.size(); i++) idxs.emplace(pred_boxes[i].br().y, i)`,
started at index `i` over the boxes not yet inserted. -/
def buildIdxs : List Rect → Nat → List (Int × Nat) → List (Int × Nat)
  | [], _, idxs => idxs
  | r :: rs, i, idxs => buildIdxs rs (i + 1) (emplace r.brY i idxs)

/-- The inner loop `for (auto i = begin(idxs); i != end(idxs); i++)`.
The working set is split at the iterator: `before` are the entries in front of
`i`, the second list the entries from `i` on.  When `iou > threshold` the entry
is erased and `i--` steps back; with nothing in front of `i` (`i` is `begin()`,
also of a set just emptied) that decrement is undefined and the run is `none`.
Otherwise the step back and the loop increment leave `i` on the next entry. -/
def scan (pred_boxes : List Rect) (rect1 : Rect) (threshold : FloatVal) :
    List (Int × Nat) → List (Int × Nat) → Option (List (Int × Nat))
  | before, [] => some before
  | before, e :: rest =>
    match pred_boxes[e.2]? with
    | none => none
    | some rect2 =>
      if gt (intersectionOverUnion rect1 rect2) threshold then
        if before = [] then none else scan pred_boxes rect1 threshold before rest
      else scan pred_boxes rect1 threshold (before ++ [e]) rest

/-- The loop `while (idxs.size())`: take the last entry (greatest bottom y),
erase it, scan the remaining entries, push `rect1` to `final_boxes`. -/
def nmsLoop (pred_boxes : List Rect) (threshold : FloatVal)
    (idxs : List (Int × Nat)) (final_boxes : List Rect) : Option (List Rect) :=
  match hl : idxs.getLast? with
  | none => some final_boxes
  | some last =>
    match pred_boxes[last.2]? with
    | none => none
    | some rect1 =>
      match hs : scan pred_boxes rect1 threshold [] idxs.dropLast with
      | none => none
      | some idxs1 => nmsLoop pred_boxes threshold idxs1 (final_boxes ++ [rect1])
termination_by idxs.length
decreasing_by
  have key : ∀ (rest before out : List (Int × Nat)),
      scan pred_boxes rect1 threshold before rest = some out →
      out.length ≤ before.length + rest.length := by
    intro rest
    induction rest with
    | nil =>
      intro before out h
      simp only [scan, Option.some.injEq] at h
      subst h
      simp
    | cons e rest ih =>
      intro before out h
      simp only [scan] at h
      split at h
      · exact absurd h (by simp)
      · split at h
        · split at h
          · exact absurd h (by simp)
          · have := ih _ _ h
            simp only [List.length_cons]
            omega
        · have := ih _ _ h
          simp only [List.length_append, List.length_cons, List.length_nil] at this ⊢
          omega
  have h1 := key _ _ _ hs
  have h2 : idxs ≠ [] := by
    intro h0
    subst h0
    simp at hl
  have h3 : 0 < idxs.length := List.length_pos.mpr h2
  simp only [List.length_nil, List.length_dropLast, Nat.zero_add] at h1
  omega

/-- `Detector_Utils::nonMaximaSuppression`: the final content of `final_boxes`,
or `none` when the run reaches undefined behaviour. -/
def nonMaximaSuppression (pred_boxes : List Rect) (threshold : FloatVal) :
    Option (List Rect) :=
  if pred_boxes.length = 0 then some []
  else nmsLoop pred_boxes threshold (buildIdxs pred_boxes 0 []) []

/-! ## Non-maxima suppression with the undefined step resolved -/

/-- The inner loop as `scan`, going on where `scan` stops.  When the entry at
`begin()` is erased, the step `i--; i++` that follows is undefined in C++; what
a compiled program does there is given by `landing`: applied to the entries
left, it is `some k` when the scan goes on at the `k`-th of them (`k` their
number: at `end()`), and `none` when the program aborts.  `skip` counts the
entries in front of that position, which the displaced iterator passes over
without examining them. -/
def scanWith (landing : List (Int × Nat) → Option Nat) (pred_boxes : List Rect)
    (rect1 : Rect) (threshold : FloatVal) :
    Nat → List (Int × Nat) → List (Int × Nat) → Option (List (Int × Nat))
  | _, before, [] => some before
  | skip + 1, before, e :: rest =>
    scanWith landing pred_boxes rect1 threshold skip (before ++ [e]) rest
  | 0, before, e :: rest =>
    match pred_boxes[e.2]? with
    | none => none
    | some rect2 =>
      if gt (intersectionOverUnion rect1 rect2) threshold then
        if before = [] then
          match landing rest with
          | none => none
          | some k => scanWith landing pred_boxes rect1 threshold k [] rest
        else scanWith landing pred_boxes rect1 threshold 0 before rest
      else scanWith landing pred_boxes rect1 threshold 0 (before ++ [e]) rest

/-- The loop `while (idxs.size())` as `nmsLoop`, over `scanWith`. -/
def nmsLoopWith (landing : List (Int × Nat) → Option Nat) (pred_boxes : List Rect)
    (threshold : FloatVal) (idxs : List (Int × Nat)) (final_boxes : List Rect) :
    Option (List Rect) :=
  match hl : idxs.getLast? with
  | none => some final_boxes
  | some last =>
    match pred_boxes[last.2]? with
    | none => none
    | some rect1 =>
      match hs : scanWith landing pred_boxes rect1 threshold 0 [] idxs.dropLast with
      | none => none
      | some idxs1 => nmsLoopWith landing pred_boxes threshold idxs1 (final_boxes ++ [rect1])
termination_by idxs.length
decreasing_by
  have key : ∀ (rest : List (Int × Nat)) (skip : Nat) (before out : List (Int × Nat)),
      scanWith landing pred_boxes rect1 threshold skip before rest = some out →
      out.length ≤ before.length + rest.length := by
    intro rest
    induction rest with
    | nil =>
      intro skip before out h
      simp only [scanWith, Option.some.injEq] at h
      subst h
      simp
    | cons e rest ih =>
      intro skip before out h
      cases skip with
      | succ k =>
        simp only [scanWith] at h
        have := ih _ _ _ h
        simp only [List.length_append, List.length_cons, List.length_nil] at this ⊢
        omega
      | zero =>
        simp only [scanWith] at h
        split at h
        · exact absurd h (by simp)
        · split at h
          · split at h
            · split at h
              · exact absurd h (by simp)
              · have := ih _ _ _ h
                simp only [List.length_cons, List.length_nil] at this ⊢
                omega
            · have := ih _ _ _ h
              simp only [List.length_cons]
              omega
          · have := ih _ _ _ h
            simp only [List.length_append, List.length_cons, List.length_nil] at this ⊢
            omega
  have h1 := key _ _ _ _ hs
  have h2 : idxs ≠ [] := by
    intro h0
    subst h0
    simp at hl
  have h3 : 0 < idxs.length := List.length_pos.mpr h2
  simp only [List.length_nil, List.length_dropLast, Nat.zero_add] at h1
  omega

/-- `Detector_Utils::nonMaximaSuppression` as run by a compiled program whose
behaviour at the undefined step is `landing`: the final content of
`final_boxes`, or `none` when the program aborts. -/
def nonMaximaSuppressionWith (landing : List (Int × Nat) → Option Nat)
    (pred_boxes : List Rect) (threshold : FloatVal) : Option (List Rect) :=
  if pred_boxes.length = 0 then some []
  else nmsLoopWith landing pred_boxes threshold (buildIdxs pred_boxes 0 []) []

/-! ## The greedy procedure of the specification -/

instance : Inhabited Rect := ⟨⟨0, 0, 0, 0⟩⟩

/-- An entry stays in the working set when its rectangle does not compare
`iou > threshold` against `keep`. -/
def staysWith (candidates : List Rect) (threshold : FloatVal) (keep : Rect)
    (e : Int × Nat) : Bool :=
  !gt (intersectionOverUnion keep (candidates.getD e.2 default)) threshold


/-- The `(bottomY, originalIndex)` pairs of the candidates, numbered from `i`. -/
def specPairs : List Rect → Nat → List (Int × Nat)
  | [], _ => []
  | r :: rs, i => (r.brY, i) :: specPairs rs (i + 1)

/-- Ascending by `bottomY`, ties broken by the original index. -/
def entryLE (a b : Int × Nat) : Prop := a.1 < b.1 ∨ (a.1 = b.1 ∧ a.2 ≤ b.2)

instance : DecidableRel entryLE := fun a b => by
  unfold entryLE
  exact inferInstance

/-- Step 2 of the specified algorithm: the working order of the candidates. -/
def specOrder (candidates : List Rect) : List (Int × Nat) :=
  (specPairs candidates 0).insertionSort entryLE

/-- Step 3 of the specified algorithm on a working order: take the last entry
(greatest `bottomY`) as `keep`, output it, drop every remaining entry whose IoU
with `keep` is strictly greater than the threshold, repeat until none remains. -/
def specGreedy (candidates : List Rect) (threshold : FloatVal)
    (order : List (Int × Nat)) : List Rect :=
  match hl : order.getLast? with
  | none => []
  | some last =>
    candidates.getD last.2 default ::
      specGreedy candidates threshold
        (order.dropLast.filter
          (staysWith candidates threshold (candidates.getD last.2 default)))
termination_by order.length
decreasing_by
  have h2 : order ≠ [] := by
    intro h0
    subst h0
    simp at hl
  have h3 : 0 < order.length := List.length_pos.mpr h2
  have h4 := List.length_filter_le
    (staysWith candidates threshold (candidates.getD last.2 default)) order.dropLast
  simp only [List.length_dropLast] at h4
  omega

/-- The specified `suppress(candidates, threshold)`. -/
def specSuppress (candidates : List Rect) (threshold : FloatVal) : List Rect :=
  specGreedy candidates threshold (specOrder candidates)

/-! ## Annotation parsing -/

/-- Outcome of a run of the annotation parser. -/
inductive Parsed (α : Type) where
  | ok (a : α)
  | thrown
  | outOfBounds
deriving DecidableEq

/-- The local array `int corners[4]`. -/
structure Corners where
  c0 : Int
  c1 : Int
  c2 : Int
  c3 : Int
deriving DecidableEq

/-- The assignment `corners[i] = v`; `none` when `i` is outside the array. -/
def Corners.set (c : Corners) : Nat → Int → Option Corners
  | 0, v => some { c with c0 := v }
  | 1, v => some { c with c1 := v }
  | 2, v => some { c with c2 := v }
  | 3, v => some { c with c3 := v }
  | _, _ => none

/-- Modelled from the spec: the blanks `std::stoi` skips in front of a number
(`isspace` of the C library, which is not part of the repository). -/
def isSpace (c : Char) : Bool :=
  c = ' ' || c = '\t' || c = '\n' || c = '\x0b' || c = '\x0c' || c = '\r'

/-- Modelled from the spec: the value of a run of decimal digits, as read by
`std::stoi`. -/
def digitsValue (ds : List Char) : Nat :=
  ds.foldl (fun acc d => 10 * acc + (d.toNat - '0'.toNat)) 0

/-- Modelled from the spec: `std::stoi` (C++ standard library, not part of the
repository) reading one integer of the corner list: blanks, an optional sign,
then decimal digits, anything after them ignored.  `none` when it throws: no
digit to convert (`invalid_argument`) or a value outside `int` (`out_of_range`). -/
def stoi (s : List Char) : Option Int :=
  let body := s.dropWhile isSpace
  let signed : Bool × List Char :=
    match body with
    | '-' :: t => (true, t)
    | '+' :: t => (false, t)
    | _ => (false, body)
  let ds := signed.2.takeWhile Char.isDigit
  if ds = [] then none
  else
    let v : Int := if signed.1 then -(digitsValue ds : Int) else (digitsValue ds : Int)
    if -2147483648 ≤ v ∧ v ≤ 2147483647 then some v else none

/-- The loop of `Detector_Utils::getCorners`, read one character at a time:
`token` is the text since the last `;`, that is `line.substr(0, pos)` once the
next `;` (at `pos = line.find(";")`) is reached.  Then `corners[i] = stoi(token)`,
the line is erased up to and including that `;`, and `i` advances.  The loop ends
when no `;` is left; the text after the last `;` is never converted.  An
exception of `stoi` is `thrown`, a store outside `corners[0..3]` is `outOfBounds`. -/
def getCornersFrom (i : Nat) (token : List Char) (corners : Corners) :
    List Char → Parsed Corners
  | [] => .ok corners
  | ch :: rest =>
    if ch = ';' then
      match stoi token with
      | none => .thrown
      | some v =>
        match corners.set i v with
        | none => .outOfBounds
        | some corners1 => getCornersFrom (i + 1) [] corners1 rest
    else getCornersFrom i (token ++ [ch]) corners rest

/-- `Detector_Utils::getCorners(line, corners)`: the array after the call. -/
def getCorners (line : List Char) (corners : Corners) : Parsed Corners :=
  getCornersFrom 0 [] corners line

/-- The label extraction of `getGroundTruth`: `pos = line.find(":")`,
`name = line.substr(0, pos)`, `line.erase(0, ++pos)`.  Without a `:` the position
is `npos`, the name is the whole line and `++pos` wraps to `0`, erasing nothing. -/
def splitLabel (line : List Char) : List Char × List Char :=
  let pos := line.indexOf ':'
  if pos < line.length then (line.take pos, line.drop (pos + 1)) else (line, line)

/-- Modelled from the spec: the lines `std::getline` delivers from the rest of
the file, `cur` being the part of the current line already read: lines end at
`\n`, and a last line without `\n` is delivered when it is not empty. -/
def getLines : List Char → List Char → List (List Char)
  | cur, [] => if cur = [] then [] else [cur]
  | cur, ch :: rest => if ch = '\n' then cur :: getLines [] rest else getLines (cur ++ [ch]) rest

/-- The rectangle pushed for a boat line:
`cv::Rect(corners[0], corners[2], corners[1] - corners[0], corners[3] - corners[2])`. -/
def rectOfCorners (c : Corners) : Rect := ⟨c.c0, c.c2, c.c1 - c.c0, c.c3 - c.c2⟩

/-- The `for (...; std::getline(filestream, line); ...)` loop of
`getGroundTruth` over the lines of the file, with the current content of
`corners` and of `ground_truth`.  The exception of `stoi` is not caught. -/
def parseLines : Corners → List Rect → List (List Char) → Parsed (List Rect)
  | _, ground_truth, [] => .ok ground_truth
  | corners, ground_truth, line :: rest =>
    if (splitLabel line).1 = "boat".toList then
      match getCorners (splitLabel line).2 corners with
      | .ok corners1 => parseLines corners1 (ground_truth ++ [rectOfCorners corners1]) rest
      | .thrown => .thrown
      | .outOfBounds => .outOfBounds
    else parseLines corners ground_truth rest

/-- `Detector_Utils::getGroundTruth`.  `file` is the content of the annotation
file, `none` when it cannot be opened; `stack` is the indeterminate initial
content of the uninitialised local `int corners[4]`. -/
def getGroundTruth (stack : Corners) (file : Option (List Char)) : Parsed (List Rect) :=
  match file with
  | none => .ok []
  | some text => parseLines stack [] (getLines [] text)

/-! ## Region filtering, best match, evaluation, negative mining, file loading -/

/-- The filtering loop of `Detector_Utils::getProposals`,
`for (int i = 0; count < max_n && i < rects.size(); i++)`, over the regions not
yet visited, with the current `count` and `proposals`. -/
def proposalsLoop (max_n : Int) : List Rect → Int → List Rect → List Rect
  | [], _, proposals => proposals
  | r :: rs, count, proposals =>
    if count < max_n then
      if 1000 < r.area then proposalsLoop max_n rs (count + 1) (proposals ++ [r])
      else proposalsLoop max_n rs count proposals
    else proposals

/-- `Detector_Utils::getProposals` behind the selective search: `rects` are the
regions delivered by `ss->process(rects)`. -/
def getProposals (rects : List Rect) (max_n : Int) : List Rect :=
  proposalsLoop max_n rects 0 []

/-- The loop of `Detector_Utils::getMaxResponseIOU` over the boxes from index
`i` on, with the current `(max_iou, max_i)`. -/
def maxResponseLoop (gt_box : Rect) : List Rect → Nat → FloatVal × Nat → FloatVal × Nat
  | [], _, best => best
  | r :: rs, i, best =>
    if gt (intersectionOverUnion gt_box r) best.1 then
      maxResponseLoop gt_box rs (i + 1) (intersectionOverUnion gt_box r, i)
    else maxResponseLoop gt_box rs (i + 1) best

/-- `Detector_Utils::getMaxResponseIOU`: the final `(max_iou, max_i)`, both
started at `0`. -/
def getMaxResponseIOU (rects : List Rect) (gt_box : Rect) : FloatVal × Nat :=
  maxResponseLoop gt_box rects 0 (fin 0, 0)

/-- The loop over the ground-truth boxes in the detector's `main`: for each box
`getMaxResponseIOU(final_boxes, ...)`, and when `max_iou > 0.0f` the box
`final_boxes[max_i]` is drawn as matched and erased from `final_boxes`.
`matched` collects the boxes drawn as matched.  An index outside `final_boxes`
is `none`. -/
def evaluationLoop : List Rect → List Rect → List Rect → Option (List Rect × List Rect)
  | [], final_boxes, matched => some (matched, final_boxes)
  | g :: gs, final_boxes, matched =>
    if gt (getMaxResponseIOU final_boxes g).1 (fin 0) then
      match final_boxes[(getMaxResponseIOU final_boxes g).2]? with
      | none => none
      | some box =>
        evaluationLoop gs (final_boxes.eraseIdx (getMaxResponseIOU final_boxes g).2)
          (matched ++ [box])
    else evaluationLoop gs final_boxes matched

/-- The evaluation of one image in the detector's `main`, guarded by
`if (!final_boxes.empty())`: the matched boxes and the boxes left over. -/
def evaluateImage (ground_truth final_boxes : List Rect) : Option (List Rect × List Rect) :=
  if final_boxes = [] then some ([], []) else evaluationLoop ground_truth final_boxes []

/-- The inner loop of the negative mining in the dataset builder's `main`: the
final value of `negative`, cleared by the first ground-truth box with `iou > 0`. -/
def isNegative (proposal : Rect) : List Rect → Bool
  | [] => true
  | g :: gs =>
    if gt (intersectionOverUnion proposal g) (fin 0) then false else isNegative proposal gs

/-- The loop `for (int j = 0; count < 4 && j < proposals.size(); j++)` of the
dataset builder over the proposals not yet visited, with the current `count`
and `neg_rects`. -/
def negativesLoop (ground_truth : List Rect) : List Rect → Int → List Rect → List Rect
  | [], _, neg_rects => neg_rects
  | p :: ps, count, neg_rects =>
    if count < 4 then
      if isNegative p ground_truth then
        negativesLoop ground_truth ps (count + 1) (neg_rects ++ [p])
      else negativesLoop ground_truth ps count neg_rects
    else neg_rects

/-- The negatives the dataset builder accepts for one processed image. -/
def negatives (proposals ground_truth : List Rect) : List Rect :=
  negativesLoop ground_truth proposals 0 []

/-- The `for` loop of `Detector_Utils::loadFiles` over the patterns.
`glob p filenames` is the content of `filenames` after
`cv::utils::fs::glob(path, p, filenames)` (OpenCV, not part of the repository),
`none` when it throws.  The result is `none` when the exception is caught
(`return -1`). -/
def globPatterns (glob : String → List String → Option (List String)) :
    List String → List String → Option (List String)
  | [], filenames => some filenames
  | p :: ps, filenames =>
    match glob p filenames with
    | none => none
    | some filenames1 => globPatterns glob ps filenames1

/-- The end of `Detector_Utils::loadFiles` behind the `while` loop:
`if (filenames.empty()) return -1; return 0;`. -/
def loadFilesResult (filenames : List String) : Int :=
  if filenames = [] then -1 else 0

/-- `Detector_Utils::loadFiles`, with `rounds` bounding the number of passes of
`while (filenames.empty())` that are followed: `some r` is the function
returning `r`, `none` is the loop still running after `rounds` passes. -/
def loadFiles (glob : String → List String → Option (List String)) (pattern : List String) :
    Nat → List String → Option Int
  | 0, filenames => if filenames = [] then none else some (loadFilesResult filenames)
  | rounds + 1, filenames =>
    if filenames = [] then
      match globPatterns glob pattern filenames with
      | none => some (-1)
      | some filenames1 => loadFiles glob pattern rounds filenames1
    else some (loadFilesResult filenames)

/-- The specified result of `bestMatch(predictions, groundTruthBox)`: `(0, 0)`
for no prediction, otherwise the maximum IoU together with the smallest index
that attains it. -/
def IsBestMatch (gt_box : Rect) (rects : List Rect) (best : FloatVal × Nat) : Prop :=
  (rects = [] → best = (fin 0, 0)) ∧
    (rects ≠ [] →
      (∀ r ∈ rects, le (intersectionOverUnion gt_box r) best.1 = true) ∧
        ∃ r, rects[best.2]? = some r ∧ intersectionOverUnion gt_box r = best.1 ∧
          ∀ (j : Nat) (r1 : Rect), j < best.2 → rects[j]? = some r1 →
            intersectionOverUnion gt_box r1 ≠ best.1)

/-- The specified evaluation policy for one image, as a relation between the
ground-truth boxes, the prediction pool, the predictions matched (in the order
of their ground-truth boxes) and the predictions left unmatched: a ground-truth
box whose best match over the remaining pool has `maxIoU > 0` is matched and
the matched prediction leaves the pool; one with `maxIoU == 0` is undetected and
the pool stays as it is. -/
inductive Evaluates : List Rect → List Rect → List Rect → List Rect → Prop where
  | done (pool : List Rect) : Evaluates [] pool [] pool
  | matched (g : Rect) (gs pool : List Rect) (box : Rect) (ms rest : List Rect) :
      gt (getMaxResponseIOU pool g).1 (fin 0) = true →
      pool[(getMaxResponseIOU pool g).2]? = some box →
      intersectionOverUnion g box = (getMaxResponseIOU pool g).1 →
      Evaluates gs (pool.eraseIdx (getMaxResponseIOU pool g).2) ms rest →
      Evaluates (g :: gs) pool (box :: ms) rest
  | undetected (g : Rect) (gs pool ms rest : List Rect) :
      (getMaxResponseIOU pool g).1 = fin 0 →
      Evaluates gs pool ms rest →
      Evaluates (g :: gs) pool ms rest

/-! # Theorems -/

/-! ## Unfolding the outer loop -/

theorem nmsLoop_nil (pred_boxes : List Rect) (threshold : FloatVal) (final_boxes : List Rect) :
    nmsLoop pred_boxes threshold [] final_boxes = some final_boxes := by
  rw [nmsLoop]
  split
  · rfl
  · rename_i last hl
    simp at hl

theorem nmsLoop_concat (pred_boxes : List Rect) (threshold : FloatVal)
    (init : List (Int × Nat)) (last : Int × Nat) (final_boxes : List Rect) :
    nmsLoop pred_boxes threshold (init ++ [last]) final_boxes =
      (pred_boxes[last.2]?).bind (fun rect1 =>
        (scan pred_boxes rect1 threshold [] init).bind (fun idxs1 =>
          nmsLoop pred_boxes threshold idxs1 (final_boxes ++ [rect1]))) := by
  rw [nmsLoop]
  split
  · rename_i hl
    simp at hl
  · rename_i last1 hl
    have hl1 : last = last1 := by
      simpa [List.getLast?_append] using hl
    subst hl1
    split
    · rename_i hb
      simp [hb]
    · rename_i rect1 hb
      simp only [hb, Option.some_bind, List.dropLast_concat]
      split
      · rename_i hs
        simp only [List.dropLast_concat] at hs
        simp [hs]
      · rename_i idxs1 hs
        simp only [List.dropLast_concat] at hs
        simp [hs]

/-! ## Facts about intersection over union -/

theorem Rect.inter_comm (a b : Rect) : a.inter b = b.inter a := by
  simp only [Rect.inter, max_comm a.x b.x, max_comm a.y b.y,
    min_comm (a.x + a.width) (b.x + b.width), min_comm (a.y + a.height) (b.y + b.height),
    or_comm]

theorem intersectionArea_comm (a b : Rect) : intersectionArea a b = intersectionArea b a := by
  simp only [intersectionArea, Rect.inter_comm a b]

theorem intAdd_comm (a b : Int) : intAdd a b = intAdd b a := by
  simp only [intAdd, and_comm, add_comm]

/-- Within the `int` range the addition is exact. -/
theorem intAdd_of_fits (a b : Int) (h : fitsInt (a + b)) : intAdd a b = a + b := by
  unfold intAdd wrap32
  unfold fitsInt at *
  split
  · omega
  · rfl

/-- The `int` sum of two positive values is exact or, wrapped, negative. -/
theorem intAdd_pos_cases (a b : Int) (ha : 0 < a) (hb : 0 < b) :
    intAdd a b = a + b ∨ intAdd a b < 0 := by
  unfold intAdd wrap32
  unfold fitsInt
  split
  · omega
  · exact Or.inl rfl

theorem unionArea_comm (a b : Rect) : unionArea a b = unionArea b a := by
  simp only [unionArea, intersectionArea_comm a b, intAdd_comm a.area b.area]

/-- The intersection has area zero, or it is a proper rectangle contained in
both arguments, hence no larger than either. -/
theorem Rect.inter_area_cases (a b : Rect) :
    (a.inter b).area = 0 ∨
      (0 < (a.inter b).area ∧ (a.inter b).area ≤ a.area ∧ (a.inter b).area ≤ b.area) := by
  unfold Rect.inter
  simp only
  split
  · left
    simp [Rect.area]
  · rename_i h
    right
    simp only [not_or, not_le] at h
    obtain ⟨hw, hh⟩ := h
    have hw1 : min (a.x + a.width) (b.x + b.width) - max a.x b.x ≤ a.width := by
      have := min_le_left (a.x + a.width) (b.x + b.width)
      have := le_max_left a.x b.x
      omega
    have hw2 : min (a.x + a.width) (b.x + b.width) - max a.x b.x ≤ b.width := by
      have := min_le_right (a.x + a.width) (b.x + b.width)
      have := le_max_right a.x b.x
      omega
    have hh1 : min (a.y + a.height) (b.y + b.height) - max a.y b.y ≤ a.height := by
      have := min_le_left (a.y + a.height) (b.y + b.height)
      have := le_max_left a.y b.y
      omega
    have hh2 : min (a.y + a.height) (b.y + b.height) - max a.y b.y ≤ b.height := by
      have := min_le_right (a.y + a.height) (b.y + b.height)
      have := le_max_right a.y b.y
      omega
    simp only [Rect.area]
    refine ⟨mul_pos hw hh, ?_, ?_⟩
    · exact mul_le_mul hw1 hh1 (le_of_lt hh) (le_trans (le_of_lt hw) hw1)
    · exact mul_le_mul hw2 hh2 (le_of_lt hh) (le_trans (le_of_lt hw) hw2)

/-- The float intersection is zero, or it is positive and then the denominator
is at least as large or, after a wrapped `int` sum, negative. -/
theorem intersectionArea_cases (a b : Rect) :
    intersectionArea a b = 0 ∨
      (0 < intersectionArea a b ∧
        (intersectionArea a b ≤ unionArea a b ∨ unionArea a b < 0)) := by
  rcases Rect.inter_area_cases a b with h | ⟨h0, h1, h2⟩
  · left
    simp [intersectionArea, h]
  · right
    have e0 : (0 : ℚ) < (((a.inter b).area : Int) : ℚ) := by exact_mod_cast h0
    have e1 : (((a.inter b).area : Int) : ℚ) ≤ ((a.area : Int) : ℚ) := by exact_mod_cast h1
    have e2 : (((a.inter b).area : Int) : ℚ) ≤ ((b.area : Int) : ℚ) := by exact_mod_cast h2
    refine ⟨e0, ?_⟩
    rcases intAdd_pos_cases a.area b.area (by omega) (by omega) with hs | hs
    · left
      simp only [unionArea, intersectionArea, hs]
      push_cast
      linarith
    · right
      have e3 : ((intAdd a.area b.area : Int) : ℚ) < 0 := by exact_mod_cast hs
      simp only [unionArea, intersectionArea]
      linarith

/-- When the `int` sum of the areas does not overflow, a positive intersection
is at most the denominator. -/
theorem intersectionArea_cases_of_fits (a b : Rect) (hfit : fitsInt (a.area + b.area)) :
    intersectionArea a b = 0 ∨
      (0 < intersectionArea a b ∧ intersectionArea a b ≤ unionArea a b) := by
  rcases Rect.inter_area_cases a b with h | ⟨h0, h1, h2⟩
  · left
    simp [intersectionArea, h]
  · right
    have e0 : (0 : ℚ) < (((a.inter b).area : Int) : ℚ) := by exact_mod_cast h0
    have e1 : (((a.inter b).area : Int) : ℚ) ≤ ((a.area : Int) : ℚ) := by exact_mod_cast h1
    have e2 : (((a.inter b).area : Int) : ℚ) ≤ ((b.area : Int) : ℚ) := by exact_mod_cast h2
    refine ⟨e0, ?_⟩
    simp only [unionArea, intersectionArea, intAdd_of_fits _ _ hfit]
    push_cast
    linarith

/-- The result of `intersectionOverUnion` is `NaN` exactly when the denominator
is zero, and otherwise a finite value that is at most 1. -/
theorem intersectionOverUnion_cases (a b : Rect) :
    (unionArea a b = 0 ∧ intersectionOverUnion a b = nan) ∨
      (unionArea a b ≠ 0 ∧ ∃ q : ℚ, intersectionOverUnion a b = fin q ∧ q ≤ 1) := by
  by_cases hd : unionArea a b = 0
  · left
    refine ⟨hd, ?_⟩
    rcases intersectionArea_cases a b with h | ⟨h0, h1 | h1⟩
    · simp [intersectionOverUnion, fdiv, hd, h]
    · rw [hd] at h1
      exact absurd h0 (not_lt.mpr h1)
    · rw [hd] at h1
      exact absurd h1 (lt_irrefl _)
  · right
    refine ⟨hd, intersectionArea a b / unionArea a b, ?_, ?_⟩
    · simp [intersectionOverUnion, fdiv, hd]
    · rcases intersectionArea_cases a b with h | ⟨h0, h1 | h1⟩
      · simp [h]
      · exact (div_le_one (lt_of_lt_of_le h0 h1)).mpr h1
      · exact le_trans (div_nonpos_of_nonneg_of_nonpos (le_of_lt h0) (le_of_lt h1)) zero_le_one

/-- When the `int` sum of the areas does not overflow and the denominator is not
zero, the result is a finite value between 0 and 1. -/
theorem intersectionOverUnion_of_fits (a b : Rect) (hfit : fitsInt (a.area + b.area))
    (hd : unionArea a b ≠ 0) :
    ∃ q : ℚ, intersectionOverUnion a b = fin q ∧ 0 ≤ q ∧ q ≤ 1 := by
  refine ⟨intersectionArea a b / unionArea a b, ?_, ?_, ?_⟩
  · simp [intersectionOverUnion, fdiv, hd]
  · rcases intersectionArea_cases_of_fits a b hfit with h | ⟨h0, h1⟩
    · simp [h]
    · exact div_nonneg (le_of_lt h0) (le_trans (le_of_lt h0) h1)
  · rcases intersectionArea_cases_of_fits a b hfit with h | ⟨h0, h1⟩
    · simp [h]
    · exact (div_le_one (lt_of_lt_of_le h0 h1)).mpr h1

theorem iou_swap (a b : Rect) : intersectionOverUnion a b = intersectionOverUnion b a := by
  simp only [intersectionOverUnion, intersectionArea_comm a b, unionArea_comm a b]

/-- No intersection over union compares greater than `1.0`. -/
theorem intersectionOverUnion_not_gt_one (a b : Rect) :
    gt (intersectionOverUnion a b) (fin 1) = false := by
  rcases intersectionOverUnion_cases a b with ⟨_, h⟩ | ⟨_, q, h, h1⟩
  · simp [h, gt, lt]
  · simp [h, gt, lt, h1]

/-! ## The inner scan -/

theorem getD_of_getElem? {l : List Rect} {i : Nat} {r : Rect} (h : l[i]? = some r) :
    l.getD i default = r := by
  simp [List.getD_eq_getElem?_getD, h]

theorem lt_length_of_getElem? {l : List Rect} {i : Nat} {r : Rect} (h : l[i]? = some r) :
    i < l.length := by
  by_contra hc
  rw [List.getElem?_eq_none (not_lt.mp hc)] at h
  exact absurd h (by simp)

theorem staysWith_of_getElem? {l : List Rect} {e : Int × Nat} {r : Rect}
    (h : l[e.2]? = some r) (threshold : FloatVal) (keep : Rect) :
    staysWith l threshold keep e = !gt (intersectionOverUnion keep r) threshold := by
  rw [staysWith, getD_of_getElem? h]

/-- A scan that completes leaves exactly the entries that stay, in order, and
has only met valid indices. -/
theorem scan_eq_some (pred_boxes : List Rect) (rect1 : Rect) (threshold : FloatVal) :
    ∀ (rest before out : List (Int × Nat)),
      scan pred_boxes rect1 threshold before rest = some out →
      out = before ++ rest.filter (staysWith pred_boxes threshold rect1) ∧
        ∀ e ∈ rest, e.2 < pred_boxes.length := by
  intro rest
  induction rest with
  | nil =>
    intro before out h
    simp only [scan, Option.some.injEq] at h
    simp [h]
  | cons e rest ih =>
    intro before out h
    simp only [scan] at h
    split at h
    · exact absurd h (by simp)
    · rename_i rect2 hb
      have hst := staysWith_of_getElem? hb threshold rect1
      have hlt := lt_length_of_getElem? hb
      split at h
      · rename_i hgt
        rw [hgt] at hst
        split at h
        · exact absurd h (by simp)
        · obtain ⟨h1, h2⟩ := ih _ _ h
          refine ⟨?_, ?_⟩
          · rw [h1, List.filter_cons, hst]
            simp
          · intro x hx
            rcases List.mem_cons.mp hx with hx | hx
            · rw [hx]; exact hlt
            · exact h2 x hx
      · rename_i hgt
        rw [Bool.not_eq_true] at hgt
        rw [hgt] at hst
        obtain ⟨h1, h2⟩ := ih _ _ h
        refine ⟨?_, ?_⟩
        · rw [h1, List.filter_cons, hst]
          simp
        · intro x hx
          rcases List.mem_cons.mp hx with hx | hx
          · rw [hx]; exact hlt
          · exact h2 x hx

/-- When no entry is suppressed the scan completes and changes nothing. -/
theorem scan_keep_all (pred_boxes : List Rect) (rect1 : Rect) (threshold : FloatVal) :
    ∀ (rest before : List (Int × Nat)),
      (∀ e ∈ rest, e.2 < pred_boxes.length ∧
        staysWith pred_boxes threshold rect1 e = true) →
      scan pred_boxes rect1 threshold before rest = some (before ++ rest) := by
  intro rest
  induction rest with
  | nil =>
    intro before _
    simp [scan]
  | cons e rest ih =>
    intro before h
    obtain ⟨hlt, hst⟩ := h e (List.mem_cons_self _ _)
    have hb : pred_boxes[e.2]? = some (pred_boxes[e.2]) := List.getElem?_eq_getElem hlt
    rw [staysWith_of_getElem? hb] at hst
    simp only [Bool.not_eq_true'] at hst
    simp only [scan, hb, hst, Bool.false_eq_true, if_false]
    rw [ih _ (fun x hx => h x (List.mem_cons_of_mem _ hx))]
    simp

/-- Once an entry stands in front of the iterator the scan always completes. -/
theorem scan_of_before_ne_nil (pred_boxes : List Rect) (rect1 : Rect) (threshold : FloatVal) :
    ∀ (rest before : List (Int × Nat)), before ≠ [] →
      (∀ e ∈ rest, e.2 < pred_boxes.length) →
      scan pred_boxes rect1 threshold before rest =
        some (before ++ rest.filter (staysWith pred_boxes threshold rect1)) := by
  intro rest
  induction rest with
  | nil =>
    intro before _ _
    simp [scan]
  | cons e rest ih =>
    intro before hne h
    have hlt := h e (List.mem_cons_self _ _)
    have hb : pred_boxes[e.2]? = some (pred_boxes[e.2]) := List.getElem?_eq_getElem hlt
    have hst := staysWith_of_getElem? hb threshold rect1
    have hrest : ∀ x ∈ rest, x.2 < pred_boxes.length :=
      fun x hx => h x (List.mem_cons_of_mem _ hx)
    simp only [scan, hb]
    by_cases hgt : gt (intersectionOverUnion rect1 pred_boxes[e.2]) threshold = true
    · rw [hgt] at hst
      simp only [hgt, if_true, hne, if_false]
      rw [ih _ hne hrest, List.filter_cons, hst]
      simp
    · rw [Bool.not_eq_true] at hgt
      rw [hgt] at hst
      simp only [hgt, Bool.false_eq_true, if_false]
      rw [ih _ (by simp) hrest, List.filter_cons, hst]
      simp

/-- The scan started at `begin()` reaches the undefined decrement exactly when
the first entry of the working set is suppressed. -/
theorem scan_begin_eq_none_iff (pred_boxes : List Rect) (rect1 : Rect) (threshold : FloatVal)
    (rest : List (Int × Nat)) (h : ∀ e ∈ rest, e.2 < pred_boxes.length) :
    scan pred_boxes rect1 threshold [] rest = none ↔
      ∃ e tl, rest = e :: tl ∧ staysWith pred_boxes threshold rect1 e = false := by
  cases rest with
  | nil => simp [scan]
  | cons e tl =>
    have hlt := h e (List.mem_cons_self _ _)
    have hb : pred_boxes[e.2]? = some (pred_boxes[e.2]) := List.getElem?_eq_getElem hlt
    have hst := staysWith_of_getElem? hb threshold rect1
    have hrest : ∀ x ∈ tl, x.2 < pred_boxes.length :=
      fun x hx => h x (List.mem_cons_of_mem _ hx)
    simp only [scan, hb]
    by_cases hgt : gt (intersectionOverUnion rect1 pred_boxes[e.2]) threshold = true
    · rw [hgt] at hst
      simp [hst, hgt]
    · rw [Bool.not_eq_true] at hgt
      rw [hgt] at hst
      simp only [hgt, Bool.false_eq_true, if_false, List.nil_append]
      rw [scan_of_before_ne_nil _ _ _ _ _ (by simp) hrest]
      simp [hst]

/-! ## Unfolding the specified procedure -/

theorem specGreedy_nil (candidates : List Rect) (threshold : FloatVal) :
    specGreedy candidates threshold [] = [] := by
  rw [specGreedy]
  split
  · rfl
  · rename_i last hl
    simp at hl

theorem specGreedy_concat (candidates : List Rect) (threshold : FloatVal)
    (init : List (Int × Nat)) (last : Int × Nat) :
    specGreedy candidates threshold (init ++ [last]) =
      candidates.getD last.2 default ::
        specGreedy candidates threshold
          (init.filter (staysWith candidates threshold (candidates.getD last.2 default))) := by
  rw [specGreedy]
  split
  · rename_i hl
    simp at hl
  · rename_i last1 hl
    have hl1 : last = last1 := by
      simpa [List.getLast?_append] using hl
    subst hl1
    simp only [List.dropLast_concat]

/-! ## The working set built by the code -/

theorem emplace_perm (key : Int) (idx : Nat) (l : List (Int × Nat)) :
    (emplace key idx l).Perm ((key, idx) :: l) := by
  induction l with
  | nil => simp [emplace]
  | cons e es ih =>
    simp only [emplace]
    split
    · exact List.Perm.refl _
    · exact (List.Perm.cons e ih).trans (List.Perm.swap _ _ _)

theorem buildIdxs_perm :
    ∀ (rs : List Rect) (i : Nat) (idxs : List (Int × Nat)),
      (buildIdxs rs i idxs).Perm (idxs ++ specPairs rs i) := by
  intro rs
  induction rs with
  | nil =>
    intro i idxs
    simp [buildIdxs, specPairs]
  | cons r rs ih =>
    intro i idxs
    simp only [buildIdxs, specPairs]
    refine (ih (i + 1) _).trans ?_
    refine ((emplace_perm r.brY i idxs).append_right _).trans ?_
    simpa using (@List.perm_middle _ (r.brY, i) idxs (specPairs rs (i + 1))).symm

theorem specPairs_length : ∀ (rs : List Rect) (i : Nat), (specPairs rs i).length = rs.length := by
  intro rs
  induction rs with
  | nil => intro i; rfl
  | cons r rs ih => intro i; simp [specPairs, ih]

theorem specPairs_mem :
    ∀ (rs : List Rect) (i : Nat) (e : Int × Nat), e ∈ specPairs rs i →
      i ≤ e.2 ∧ e.2 < i + rs.length := by
  intro rs
  induction rs with
  | nil => intro i e h; simp [specPairs] at h
  | cons r rs ih =>
    intro i e h
    simp only [specPairs, List.mem_cons] at h
    rcases h with h | h
    · subst h
      simp
    · have := ih _ _ h
      simp only [List.length_cons]
      omega

theorem specPairs_nodup :
    ∀ (rs : List Rect) (i : Nat), ((specPairs rs i).map Prod.snd).Nodup := by
  intro rs
  induction rs with
  | nil => intro i; simp [specPairs]
  | cons r rs ih =>
    intro i
    simp only [specPairs, List.map_cons, List.nodup_cons]
    refine ⟨?_, ih _⟩
    intro hmem
    obtain ⟨e, he, hi⟩ := List.mem_map.mp hmem
    have := (specPairs_mem rs (i + 1) e he).1
    omega

theorem buildIdxs_length (candidates : List Rect) :
    (buildIdxs candidates 0 []).length = candidates.length := by
  rw [(buildIdxs_perm candidates 0 []).length_eq]
  simp [specPairs_length]

theorem buildIdxs_valid (candidates : List Rect) :
    ∀ e ∈ buildIdxs candidates 0 [], e.2 < candidates.length := by
  intro e he
  have h := (buildIdxs_perm candidates 0 []).subset he
  simp only [List.nil_append] at h
  have := (specPairs_mem candidates 0 e h).2
  omega

theorem buildIdxs_nodup (candidates : List Rect) :
    ((buildIdxs candidates 0 []).map Prod.snd).Nodup := by
  have h := (buildIdxs_perm candidates 0 []).map Prod.snd
  simp only [List.nil_append] at h
  exact h.nodup_iff.mpr (specPairs_nodup candidates 0)

theorem emplace_mem (key : Int) (idx : Nat) (l : List (Int × Nat)) (e : Int × Nat) :
    e ∈ emplace key idx l ↔ e = (key, idx) ∨ e ∈ l := by
  rw [(emplace_perm key idx l).mem_iff, List.mem_cons]

instance : IsTrans (Int × Nat) entryLE where
  trans a b c hab hbc := by
    unfold entryLE at *
    omega

instance : IsTotal (Int × Nat) entryLE where
  total a b := by
    unfold entryLE
    omega

instance : IsAntisymm (Int × Nat) entryLE where
  antisymm a b hab hba := by
    unfold entryLE at *
    apply Prod.ext <;> omega

theorem emplace_sorted (key : Int) (idx : Nat) :
    ∀ (l : List (Int × Nat)), l.Sorted entryLE → (∀ e ∈ l, e.2 < idx) →
      (emplace key idx l).Sorted entryLE := by
  intro l
  induction l with
  | nil =>
    intro _ _
    simp [emplace]
  | cons e es ih =>
    intro hs hi
    have hs1 := List.sorted_cons.mp hs
    simp only [emplace]
    split
    · rename_i hlt
      refine List.sorted_cons.mpr ⟨?_, hs⟩
      intro x hx
      rcases List.mem_cons.mp hx with hx | hx
      · subst hx
        exact Or.inl hlt
      · have := hs1.1 x hx
        unfold entryLE at this ⊢
        simp only at this ⊢
        omega
    · rename_i hlt
      refine List.sorted_cons.mpr ⟨?_, ih hs1.2 (fun x hx => hi x (List.mem_cons_of_mem _ hx))⟩
      intro x hx
      rcases (emplace_mem key idx es x).mp hx with hx | hx
      · subst hx
        have := hi e (List.mem_cons_self _ _)
        unfold entryLE
        simp only
        omega
      · exact hs1.1 x hx

theorem buildIdxs_sorted :
    ∀ (rs : List Rect) (i : Nat) (idxs : List (Int × Nat)),
      idxs.Sorted entryLE → (∀ e ∈ idxs, e.2 < i) → (buildIdxs rs i idxs).Sorted entryLE := by
  intro rs
  induction rs with
  | nil =>
    intro i idxs hs _
    simpa [buildIdxs] using hs
  | cons r rs ih =>
    intro i idxs hs hi
    simp only [buildIdxs]
    refine ih (i + 1) _ (emplace_sorted r.brY i idxs hs hi) ?_
    intro e he
    rcases (emplace_mem r.brY i idxs e).mp he with he | he
    · subst he
      simp
    · have := hi e he
      omega

/-- The multimap filled by the code holds the candidates in the order of the
specification: ascending bottom y, ties in input order. -/
theorem buildIdxs_eq_specOrder (candidates : List Rect) :
    buildIdxs candidates 0 [] = specOrder candidates := by
  refine List.eq_of_perm_of_sorted ?_
    (buildIdxs_sorted candidates 0 [] List.sorted_nil (by simp))
    (List.sorted_insertionSort entryLE _)
  refine (buildIdxs_perm candidates 0 []).trans ?_
  simpa [specOrder] using (List.perm_insertionSort entryLE (specPairs candidates 0)).symm

/-! ## The outer loop -/

theorem eq_nil_or_snoc {α : Type} (l : List α) : l = [] ∨ ∃ init last, l = init ++ [last] := by
  rcases List.eq_nil_or_concat l with h | ⟨init, last, h⟩
  · exact Or.inl h
  · exact Or.inr ⟨init, last, by rw [h, List.concat_eq_append]⟩

/-- Every completed run of the loop appends the output of the specified greedy
procedure on the same working order. -/
theorem nmsLoop_refines (pred_boxes : List Rect) (threshold : FloatVal) :
    ∀ (n : Nat) (idxs : List (Int × Nat)) (acc out : List Rect), idxs.length ≤ n →
      nmsLoop pred_boxes threshold idxs acc = some out →
      out = acc ++ specGreedy pred_boxes threshold idxs := by
  intro n
  induction n with
  | zero =>
    intro idxs acc out hlen h
    have h0 : idxs = [] := List.length_eq_zero.mp (Nat.le_zero.mp hlen)
    subst h0
    rw [nmsLoop_nil] at h
    simp only [Option.some.injEq] at h
    simp [specGreedy_nil, h]
  | succ n ih =>
    intro idxs acc out hlen h
    rcases eq_nil_or_snoc idxs with h0 | ⟨init, last, h0⟩
    · subst h0
      rw [nmsLoop_nil] at h
      simp only [Option.some.injEq] at h
      simp [specGreedy_nil, h]
    · subst h0
      rw [nmsLoop_concat] at h
      cases hb : pred_boxes[last.2]? with
      | none => simp [hb] at h
      | some rect1 =>
        simp only [hb, Option.some_bind] at h
        cases hs : scan pred_boxes rect1 threshold [] init with
        | none => simp [hs] at h
        | some idxs1 =>
          simp only [hs, Option.some_bind] at h
          obtain ⟨h1, _⟩ := scan_eq_some _ _ _ _ _ _ hs
          simp only [List.nil_append] at h1
          have hlen1 : idxs1.length ≤ n := by
            rw [h1]
            have := List.length_filter_le (staysWith pred_boxes threshold rect1) init
            simp only [List.length_append, List.length_cons, List.length_nil] at hlen
            omega
          have := ih idxs1 _ _ hlen1 h
          rw [this, specGreedy_concat, getD_of_getElem? hb, h1]
          simp

/-- With a threshold that no IoU exceeds the loop completes and outputs every
entry, from the last to the first. -/
theorem nmsLoop_keep_all (pred_boxes : List Rect) (threshold : FloatVal)
    (hthr : ∀ a b : Rect, gt (intersectionOverUnion a b) threshold = false) :
    ∀ (idxs : List (Int × Nat)) (acc : List Rect),
      (∀ e ∈ idxs, e.2 < pred_boxes.length) →
      nmsLoop pred_boxes threshold idxs acc =
        some (acc ++ idxs.reverse.map (fun e => pred_boxes.getD e.2 default)) := by
  intro idxs
  induction idxs using List.reverseRecOn with
  | nil =>
    intro acc _
    simp [nmsLoop_nil]
  | append_singleton init last ih =>
    intro acc hv
    have hlt := hv last (by simp)
    have hb : pred_boxes[last.2]? = some (pred_boxes[last.2]) := List.getElem?_eq_getElem hlt
    have hinit : ∀ e ∈ init, e.2 < pred_boxes.length := fun e he => hv e (by simp [he])
    rw [nmsLoop_concat, hb]
    simp only [Option.some_bind]
    rw [scan_keep_all _ _ _ _ _ (fun e he => ⟨hinit e he, by simp [staysWith, hthr]⟩)]
    simp only [Option.some_bind, List.nil_append]
    rw [ih _ hinit]
    simp [hb]

/-- The output of the specified greedy procedure lists entries of the working
order, each at most once, from the back to the front. -/
theorem specGreedy_sublist (candidates : List Rect) (threshold : FloatVal) :
    ∀ (n : Nat) (order : List (Int × Nat)), order.length ≤ n →
      ∃ js : List (Int × Nat), js.Sublist order.reverse ∧
        specGreedy candidates threshold order =
          js.map (fun e => candidates.getD e.2 default) := by
  intro n
  induction n with
  | zero =>
    intro order hlen
    have h0 : order = [] := List.length_eq_zero.mp (Nat.le_zero.mp hlen)
    subst h0
    exact ⟨[], by simp, by simp [specGreedy_nil]⟩
  | succ n ih =>
    intro order hlen
    rcases eq_nil_or_snoc order with h0 | ⟨init, last, h0⟩
    · subst h0
      exact ⟨[], by simp, by simp [specGreedy_nil]⟩
    · subst h0
      have hlen1 : (init.filter (staysWith candidates threshold
          (candidates.getD last.2 default))).length ≤ n := by
        have := List.length_filter_le
          (staysWith candidates threshold (candidates.getD last.2 default)) init
        simp only [List.length_append, List.length_cons, List.length_nil] at hlen
        omega
      obtain ⟨js, hsub, heq⟩ := ih _ hlen1
      refine ⟨last :: js, ?_, ?_⟩
      · rw [List.reverse_append]
        simp only [List.reverse_cons, List.reverse_nil, List.nil_append, List.singleton_append]
        refine List.Sublist.cons₂ _ (hsub.trans ?_)
        exact (List.filter_sublist _).reverse
      · rw [specGreedy_concat, heq]
        simp

/-! ## Non-maxima suppression against the specified procedure -/

/-- Every run of `nonMaximaSuppression` that completes returns the list of the
specified greedy procedure. -/
theorem nonMaximaSuppression_refines (candidates : List Rect) (threshold : FloatVal)
    (out : List Rect) (h : nonMaximaSuppression candidates threshold = some out) :
    out = specSuppress candidates threshold := by
  unfold nonMaximaSuppression at h
  split at h
  · rename_i h0
    have hnil : candidates = [] := List.length_eq_zero.mp h0
    subst hnil
    simp only [Option.some.injEq] at h
    simp [specSuppress, specOrder, specPairs, specGreedy_nil, h]
  · have := nmsLoop_refines candidates threshold _ _ _ _ (le_refl _) h
    simpa [specSuppress, buildIdxs_eq_specOrder] using this

/-- A list of entries with distinct valid indices selects the candidates
injectively. -/
theorem injective_selection_of_entries (candidates : List Rect) (js : List (Int × Nat))
    (hn : (js.map Prod.snd).Nodup) (hv : ∀ e ∈ js, e.2 < candidates.length) :
    ∃ f : Fin (js.map (fun e => candidates.getD e.2 default)).length → Fin candidates.length,
      Function.Injective f ∧
        ∀ k, (js.map (fun e => candidates.getD e.2 default)).get k = candidates.get (f k) := by
  have hlen : (js.map (fun e => candidates.getD e.2 default)).length = js.length := by simp
  refine ⟨fun k => ⟨(js.get ⟨k.1, by rw [← hlen]; exact k.2⟩).2, hv _ (List.get_mem _ _ _)⟩,
    ?_, ?_⟩
  · intro k1 k2 h
    simp only [Fin.mk.injEq] at h
    have hinj := List.nodup_iff_injective_get.mp hn
    have hk1 : k1.1 < (js.map Prod.snd).length := by
      have := k1.2
      simp only [List.length_map] at this ⊢
      exact this
    have hk2 : k2.1 < (js.map Prod.snd).length := by
      have := k2.2
      simp only [List.length_map] at this ⊢
      exact this
    have heq : (js.map Prod.snd).get ⟨k1.1, hk1⟩ = (js.map Prod.snd).get ⟨k2.1, hk2⟩ := by
      simpa using h
    have := hinj heq
    simp only [Fin.mk.injEq] at this
    exact Fin.ext this
  · intro k
    have hk : k.1 < js.length := by rw [← hlen]; exact k.2
    have hlt : (js[k.1]).2 < candidates.length := hv _ (List.getElem_mem _)
    simp only [List.get_eq_getElem, List.getElem_map]
    rw [List.getD_eq_getElem?_getD, List.getElem?_eq_getElem hlt]
    rfl

/-- Two candidates that compare `iou > threshold`: the scan erases the only
remaining entry, which is `begin()`, and steps back from it. -/
theorem nonMaximaSuppression_pair (a b : Rect) (threshold : FloatVal)
    (hgt : gt (intersectionOverUnion a b) threshold = true) :
    nonMaximaSuppression [a, b] threshold = none := by
  have hgt1 : gt (intersectionOverUnion b a) threshold = true := by
    rw [iou_swap b a]
    exact hgt
  simp only [nonMaximaSuppression, buildIdxs, emplace, List.length_cons, List.length_nil]
  rw [if_neg (by omega)]
  split
  · show nmsLoop [a, b] threshold ([(b.brY, 0 + 1)] ++ [(a.brY, 0)]) [] = none
    rw [nmsLoop_concat]
    simp [scan, hgt]
  · show nmsLoop [a, b] threshold ([(a.brY, 0)] ++ [(b.brY, 0 + 1)]) [] = none
    rw [nmsLoop_concat]
    simp [scan, hgt1]

/-! ## Non-maxima suppression: stated properties -/

/-- C1 (the code departs from the specified procedure): on the candidates
`[0,0,10,10]`, `[20,20,10,10]`, `[0,1,10,10]` with threshold `0.5` the specified
greedy procedure yields `[20,20,10,10]`, `[0,1,10,10]`, while the code, in its
second round, erases the first entry of the working set and steps the iterator
back from `begin()`: the run is undefined. -/
theorem nonMaximaSuppression_undefined_where_greedy_defined :
    nonMaximaSuppression [⟨0, 0, 10, 10⟩, ⟨20, 20, 10, 10⟩, ⟨0, 1, 10, 10⟩] (fin (1 / 2)) = none ∧
      specSuppress [⟨0, 0, 10, 10⟩, ⟨20, 20, 10, 10⟩, ⟨0, 1, 10, 10⟩] (fin (1 / 2)) =
        [⟨20, 20, 10, 10⟩, ⟨0, 1, 10, 10⟩] := by
  have hb : buildIdxs [⟨0, 0, 10, 10⟩, ⟨20, 20, 10, 10⟩, ⟨0, 1, 10, 10⟩] 0 [] =
      [(10, 0)] ++ [(11, 2)] ++ [(30, 1)] := by decide
  have h1 : intersectionOverUnion ⟨20, 20, 10, 10⟩ ⟨0, 0, 10, 10⟩ = fin 0 := by
    simp [intersectionOverUnion, intersectionArea, unionArea, intAdd, fitsInt, wrap32, Rect.inter, Rect.area, fdiv]
  have h2 : intersectionOverUnion ⟨20, 20, 10, 10⟩ ⟨0, 1, 10, 10⟩ = fin 0 := by
    simp [intersectionOverUnion, intersectionArea, unionArea, intAdd, fitsInt, wrap32, Rect.inter, Rect.area, fdiv]
  have h3 : intersectionOverUnion ⟨0, 1, 10, 10⟩ ⟨0, 0, 10, 10⟩ = fin (9 / 11) := by
    simp [intersectionOverUnion, intersectionArea, unionArea, intAdd, fitsInt, wrap32, Rect.inter, Rect.area, fdiv]
    norm_num
  have g0 : gt (fin 0) (fin (1 / 2)) = false := by
    simp [gt, lt]
  have g1 : gt (fin (9 / 11)) (fin (1 / 2)) = true := by
    simp [gt, lt]
    norm_num
  constructor
  · simp only [nonMaximaSuppression, hb, List.length_cons, List.length_nil]
    rw [if_neg (by omega), nmsLoop_concat]
    simp only [List.getElem?_cons_succ, List.getElem?_cons_zero, Option.some_bind,
      List.cons_append, List.nil_append, scan, h1, h2, g0, Bool.false_eq_true, if_false]
    show nmsLoop _ _ ([(10, 0)] ++ [(11, 2)]) _ = none
    rw [nmsLoop_concat]
    simp only [List.getElem?_cons_succ, List.getElem?_cons_zero, Option.some_bind,
      scan, h3, g1, if_true, Option.none_bind]
  · rw [specSuppress, ← buildIdxs_eq_specOrder, hb, specGreedy_concat]
    have e1 : List.getD [(⟨0, 0, 10, 10⟩ : Rect), ⟨20, 20, 10, 10⟩, ⟨0, 1, 10, 10⟩] 1 default =
        ⟨20, 20, 10, 10⟩ := rfl
    have e2 : List.getD [(⟨0, 0, 10, 10⟩ : Rect), ⟨20, 20, 10, 10⟩, ⟨0, 1, 10, 10⟩] 2 default =
        ⟨0, 1, 10, 10⟩ := rfl
    have e0 : List.getD [(⟨0, 0, 10, 10⟩ : Rect), ⟨20, 20, 10, 10⟩, ⟨0, 1, 10, 10⟩] 0 default =
        ⟨0, 0, 10, 10⟩ := rfl
    simp only [e1]
    have f1 : List.filter (staysWith [⟨0, 0, 10, 10⟩, ⟨20, 20, 10, 10⟩, ⟨0, 1, 10, 10⟩]
        (fin (1 / 2)) ⟨20, 20, 10, 10⟩) ([(10, 0)] ++ [(11, 2)]) = [(10, 0)] ++ [(11, 2)] := by
      simp only [List.singleton_append, List.filter_cons, List.filter_nil, staysWith, e0, e2,
        h1, h2, g0, Bool.not_false, if_true]
    rw [f1, specGreedy_concat]
    simp only [e2]
    have f2 : List.filter (staysWith [⟨0, 0, 10, 10⟩, ⟨20, 20, 10, 10⟩, ⟨0, 1, 10, 10⟩]
        (fin (1 / 2)) ⟨0, 1, 10, 10⟩) [(10, 0)] = [] := by
      simp only [List.filter_cons, List.filter_nil, staysWith, e0, h3, g1, Bool.not_true,
        Bool.false_eq_true, if_false]
    rw [f2, specGreedy_nil]

/-- C2 (the code departs from the claim): for two rectangles with different
bottom-right y whose IoU compares greater than the threshold, the specified
procedure returns the one rectangle with the greater bottom y, but the code
erases the only remaining entry, steps the iterator back from `begin()` of the
emptied working set, and the run is undefined. -/
theorem nonMaximaSuppression_overlapping_pair_undefined (a b : Rect) (threshold : FloatVal)
    (hy : a.brY ≠ b.brY) (hgt : gt (intersectionOverUnion a b) threshold = true) :
    nonMaximaSuppression [a, b] threshold = none ∧
      specSuppress [a, b] threshold = [if a.brY < b.brY then b else a] := by
  refine ⟨nonMaximaSuppression_pair a b threshold hgt, ?_⟩
  have hgt1 : gt (intersectionOverUnion b a) threshold = true := by
    rw [iou_swap b a]
    exact hgt
  rw [specSuppress, ← buildIdxs_eq_specOrder]
  simp only [buildIdxs, emplace]
  by_cases hlt : a.brY < b.brY
  · rw [if_neg (by omega), if_pos hlt]
    show specGreedy [a, b] threshold ([(a.brY, 0)] ++ [(b.brY, 0 + 1)]) = [b]
    rw [specGreedy_concat]
    have e1 : List.getD [a, b] (0 + 1) default = b := rfl
    have e0 : List.getD [a, b] 0 default = a := rfl
    simp only [e1, List.filter_cons, List.filter_nil, staysWith, e0, hgt1, Bool.not_true,
      Bool.false_eq_true, if_false, specGreedy_nil]
  · have hlt1 : b.brY < a.brY := by omega
    rw [if_pos hlt1, if_neg hlt]
    show specGreedy [a, b] threshold ([(b.brY, 0 + 1)] ++ [(a.brY, 0)]) = [a]
    rw [specGreedy_concat]
    have e1 : List.getD [a, b] (0 + 1) default = b := rfl
    have e0 : List.getD [a, b] 0 default = a := rfl
    simp only [e0, List.filter_cons, List.filter_nil, staysWith, e1, hgt, Bool.not_true,
      Bool.false_eq_true, if_false, specGreedy_nil]

theorem nonMaximaSuppression_overlapping_pair_undefined_witness :
    (⟨0, 0, 10, 10⟩ : Rect).brY ≠ (⟨5, 5, 10, 10⟩ : Rect).brY ∧
      gt (intersectionOverUnion ⟨0, 0, 10, 10⟩ ⟨5, 5, 10, 10⟩) (fin (1 / 10)) = true ∧
      nonMaximaSuppression [⟨0, 0, 10, 10⟩, ⟨5, 5, 10, 10⟩] (fin (1 / 10)) = none ∧
      specSuppress [⟨0, 0, 10, 10⟩, ⟨5, 5, 10, 10⟩] (fin (1 / 10)) = [⟨5, 5, 10, 10⟩] := by
  have hy : (⟨0, 0, 10, 10⟩ : Rect).brY ≠ (⟨5, 5, 10, 10⟩ : Rect).brY := by decide
  have hgt : gt (intersectionOverUnion ⟨0, 0, 10, 10⟩ ⟨5, 5, 10, 10⟩) (fin (1 / 10)) = true := by
    simp [intersectionOverUnion, intersectionArea, unionArea, intAdd, fitsInt, wrap32, Rect.inter, Rect.area, fdiv,
      gt, lt]
    norm_num
  have h := nonMaximaSuppression_overlapping_pair_undefined
    ⟨0, 0, 10, 10⟩ ⟨5, 5, 10, 10⟩ (fin (1 / 10)) hy hgt
  exact ⟨hy, hgt, h.1, h.2⟩

/-- C3: with threshold `1.0` the run completes for every candidate list and
nothing is suppressed: the output has as many rectangles as the input. -/
theorem nonMaximaSuppression_threshold_one (candidates : List Rect) :
    ∃ out, nonMaximaSuppression candidates (fin 1) = some out ∧
      out.length = candidates.length := by
  unfold nonMaximaSuppression
  split
  · rename_i h0
    exact ⟨[], rfl, by simp [h0]⟩
  · refine ⟨_, nmsLoop_keep_all candidates (fin 1) intersectionOverUnion_not_gt_one _ _
      (buildIdxs_valid candidates), ?_⟩
    simp [buildIdxs_length]

/-- On the runs that meet no undefined step the output is a selection of input
elements without repetition: an injective map `f` from output positions to
input indices satisfies `output[k] = candidates[f k]` for every `k`. -/
theorem nonMaximaSuppression_injective_selection (candidates : List Rect)
    (threshold : FloatVal) (out : List Rect)
    (h : nonMaximaSuppression candidates threshold = some out) :
    ∃ f : Fin out.length → Fin candidates.length,
      Function.Injective f ∧ ∀ k, out.get k = candidates.get (f k) := by
  unfold nonMaximaSuppression at h
  split at h
  · simp only [Option.some.injEq] at h
    subst h
    exact ⟨fun k => k.elim0, fun k => k.elim0, fun k => k.elim0⟩
  · have href := nmsLoop_refines candidates threshold _ _ _ _ (le_refl _) h
    obtain ⟨js, hsub, hjs⟩ := specGreedy_sublist candidates threshold _
      (buildIdxs candidates 0 []) (le_refl _)
    rw [hjs, List.nil_append] at href
    subst href
    refine injective_selection_of_entries candidates js ?_ ?_
    · have hnd : (List.map Prod.snd (buildIdxs candidates 0 []).reverse).Nodup := by
        rw [List.map_reverse, List.nodup_reverse]
        exact buildIdxs_nodup candidates
      exact hnd.sublist (hsub.map Prod.snd)
    · intro e he
      exact buildIdxs_valid candidates e (List.mem_reverse.mp (hsub.subset he))

theorem nonMaximaSuppression_injective_selection_witness :
    nonMaximaSuppression [⟨20, 0, 10, 10⟩, ⟨0, 2, 10, 10⟩, ⟨0, 1, 10, 10⟩] (fin (1 / 2)) =
        some [⟨0, 2, 10, 10⟩, ⟨20, 0, 10, 10⟩] ∧
      ∃ f : Fin [(⟨0, 2, 10, 10⟩ : Rect), ⟨20, 0, 10, 10⟩].length →
          Fin [(⟨20, 0, 10, 10⟩ : Rect), ⟨0, 2, 10, 10⟩, ⟨0, 1, 10, 10⟩].length,
        Function.Injective f ∧
          ∀ k, [(⟨0, 2, 10, 10⟩ : Rect), ⟨20, 0, 10, 10⟩].get k =
            [(⟨20, 0, 10, 10⟩ : Rect), ⟨0, 2, 10, 10⟩, ⟨0, 1, 10, 10⟩].get (f k) := by
  have hb : buildIdxs [⟨20, 0, 10, 10⟩, ⟨0, 2, 10, 10⟩, ⟨0, 1, 10, 10⟩] 0 [] =
      [(10, 0)] ++ [(11, 2)] ++ [(12, 1)] := by decide
  have h1 : intersectionOverUnion ⟨0, 2, 10, 10⟩ ⟨20, 0, 10, 10⟩ = fin 0 := by
    simp [intersectionOverUnion, intersectionArea, unionArea, intAdd, fitsInt, wrap32, Rect.inter, Rect.area, fdiv]
  have h2 : intersectionOverUnion ⟨0, 2, 10, 10⟩ ⟨0, 1, 10, 10⟩ = fin (9 / 11) := by
    simp [intersectionOverUnion, intersectionArea, unionArea, intAdd, fitsInt, wrap32, Rect.inter, Rect.area, fdiv]
    norm_num
  have g0 : gt (fin 0) (fin (1 / 2)) = false := by
    simp [gt, lt]
  have g1 : gt (fin (9 / 11)) (fin (1 / 2)) = true := by
    simp [gt, lt]
    norm_num
  have hrun : nonMaximaSuppression [⟨20, 0, 10, 10⟩, ⟨0, 2, 10, 10⟩, ⟨0, 1, 10, 10⟩]
      (fin (1 / 2)) = some [⟨0, 2, 10, 10⟩, ⟨20, 0, 10, 10⟩] := by
    simp only [nonMaximaSuppression, hb, List.length_cons, List.length_nil]
    rw [if_neg (by omega), nmsLoop_concat]
    simp only [List.getElem?_cons_succ, List.getElem?_cons_zero, Option.some_bind,
      List.cons_append, List.nil_append, scan, h1, h2, g0, g1, Bool.false_eq_true, if_false,
      if_true]
    simp only [List.cons_ne_nil, if_false]
    show nmsLoop _ _ ([] ++ [(10, 0)]) _ = _
    rw [nmsLoop_concat]
    simp only [List.getElem?_cons_zero, Option.some_bind, scan, nmsLoop_nil, List.cons_append,
      List.nil_append]
  exact ⟨hrun, nonMaximaSuppression_injective_selection _ _ _ hrun⟩

/-! ## Intersection over union: stated properties -/

/-- The IoU of `[0,0,32768,32768]` with itself: each area is `2^30`, the `int`
sum of the two wraps to `-2^31`, and the result is `-1/3`. -/
theorem iou_overflow_value :
    intersectionOverUnion ⟨0, 0, 32768, 32768⟩ ⟨0, 0, 32768, 32768⟩ = fin (-1 / 3) := by
  simp [intersectionOverUnion, intersectionArea, unionArea, intAdd, fitsInt, wrap32, Rect.inter, Rect.area, fdiv]
  norm_num

/-- C5 (fails as stated): for two zero-area rectangles the result is `NaN`, for
which neither `0 <= v` nor `v <= 1` holds; and for `[0,0,32768,32768]` against
itself the `int` sum of the areas overflows and the result `-1/3` is negative. -/
theorem iou_unit_interval_counterexample :
    ¬ (le (fin 0) (intersectionOverUnion ⟨0, 0, 0, 0⟩ ⟨0, 0, 0, 0⟩) = true ∧
        le (intersectionOverUnion ⟨0, 0, 0, 0⟩ ⟨0, 0, 0, 0⟩) (fin 1) = true) ∧
      le (fin 0) (intersectionOverUnion ⟨0, 0, 32768, 32768⟩ ⟨0, 0, 32768, 32768⟩) = false := by
  have h : intersectionOverUnion ⟨0, 0, 0, 0⟩ ⟨0, 0, 0, 0⟩ = nan := by
    simp [intersectionOverUnion, intersectionArea, unionArea, intAdd, fitsInt, wrap32, Rect.inter, Rect.area, fdiv]
  constructor
  · rw [h]
    simp [le]
  · rw [iou_overflow_value]
    simp [le]
    norm_num

/-- C5 (amended): for every two rectangles whose `int` sum of areas does not
overflow and whose denominator `area(a) + area(b) - area(a ∩ b)` is not zero,
`intersectionOverUnion a b` is a value `v` with `0 <= v` and `v <= 1`. -/
theorem iou_unit_interval_of_union_ne_zero (a b : Rect)
    (hfit : fitsInt (a.area + b.area)) (h : unionArea a b ≠ 0) :
    le (fin 0) (intersectionOverUnion a b) = true ∧
      le (intersectionOverUnion a b) (fin 1) = true := by
  obtain ⟨q, hq, hq0, hq1⟩ := intersectionOverUnion_of_fits a b hfit h
  rw [hq]
  simp [le, hq0, hq1]

theorem iou_unit_interval_of_union_ne_zero_witness :
    fitsInt ((⟨0, 0, 10, 10⟩ : Rect).area + (⟨5, 5, 10, 10⟩ : Rect).area) ∧
      unionArea ⟨0, 0, 10, 10⟩ ⟨5, 5, 10, 10⟩ ≠ 0 ∧
      (le (fin 0) (intersectionOverUnion ⟨0, 0, 10, 10⟩ ⟨5, 5, 10, 10⟩) = true ∧
        le (intersectionOverUnion ⟨0, 0, 10, 10⟩ ⟨5, 5, 10, 10⟩) (fin 1) = true) :=
  ⟨by decide,
    by simp [unionArea, intAdd, fitsInt, wrap32, intersectionArea, Rect.inter, Rect.area]; norm_num,
    iou_unit_interval_of_union_ne_zero ⟨0, 0, 10, 10⟩ ⟨5, 5, 10, 10⟩ (by decide)
      (by simp [unionArea, intAdd, fitsInt, wrap32, intersectionArea, Rect.inter, Rect.area]; norm_num)⟩

/-- C6 (fails as stated): for the zero-area rectangles `[3,4,0,5]` and
`[1,1,7,0]` the denominator is zero and the result is not `0`. -/
theorem iou_zero_union_counterexample :
    unionArea ⟨3, 4, 0, 5⟩ ⟨1, 1, 7, 0⟩ = 0 ∧
      intersectionOverUnion ⟨3, 4, 0, 5⟩ ⟨1, 1, 7, 0⟩ ≠ fin 0 := by
  constructor
  · simp [unionArea, intAdd, fitsInt, wrap32, intersectionArea, Rect.inter, Rect.area]
  · simp [intersectionOverUnion, intersectionArea, unionArea, intAdd, fitsInt, wrap32, Rect.inter, Rect.area, fdiv]

/-- C6 (amended): for every two rectangles whose denominator
`area(a) + area(b) - area(a ∩ b)` is zero, the division is not guarded and
`intersectionOverUnion a b` is the float `0/0`, that is `NaN`, which compares
greater than no threshold. -/
theorem iou_nan_of_union_eq_zero (a b : Rect) (h : unionArea a b = 0) :
    intersectionOverUnion a b = nan ∧
      ∀ threshold : FloatVal, gt (intersectionOverUnion a b) threshold = false := by
  rcases intersectionOverUnion_cases a b with ⟨_, h1⟩ | ⟨h0, _⟩
  · refine ⟨h1, fun threshold => ?_⟩
    rw [h1]
    cases threshold <;> rfl
  · exact absurd h h0

theorem iou_nan_of_union_eq_zero_witness :
    unionArea ⟨0, 0, 0, 0⟩ ⟨2, 2, 0, 3⟩ = 0 ∧
      (intersectionOverUnion ⟨0, 0, 0, 0⟩ ⟨2, 2, 0, 3⟩ = nan ∧
        ∀ threshold : FloatVal,
          gt (intersectionOverUnion ⟨0, 0, 0, 0⟩ ⟨2, 2, 0, 3⟩) threshold = false) :=
  ⟨by simp [unionArea, intAdd, fitsInt, wrap32, intersectionArea, Rect.inter, Rect.area],
    iou_nan_of_union_eq_zero ⟨0, 0, 0, 0⟩ ⟨2, 2, 0, 3⟩
      (by simp [unionArea, intAdd, fitsInt, wrap32, intersectionArea, Rect.inter, Rect.area])⟩

/-- C7 (fails as stated): for the zero-area rectangles `[0,0,0,7]` and
`[4,4,3,0]` both calls return `NaN`, and the float comparison
`iou(a, b) == iou(b, a)` of two `NaN` is false. -/
theorem iou_eq_comm_counterexample :
    FloatVal.eq (intersectionOverUnion ⟨0, 0, 0, 7⟩ ⟨4, 4, 3, 0⟩)
      (intersectionOverUnion ⟨4, 4, 3, 0⟩ ⟨0, 0, 0, 7⟩) = false := by
  have h1 : intersectionOverUnion ⟨0, 0, 0, 7⟩ ⟨4, 4, 3, 0⟩ = nan := by
    simp [intersectionOverUnion, intersectionArea, unionArea, intAdd, fitsInt, wrap32, Rect.inter, Rect.area, fdiv]
  rw [h1]
  rfl

/-- C7 (amended): for all rectangles `a` and `b` whose denominator
`area(a) + area(b) - area(a ∩ b)` is not zero, the float comparison
`intersectionOverUnion a b == intersectionOverUnion b a` holds; in every case
the two calls compute the same float, `NaN` when the denominator is zero. -/
theorem iou_eq_comm_of_union_ne_zero (a b : Rect) (h : unionArea a b ≠ 0) :
    FloatVal.eq (intersectionOverUnion a b) (intersectionOverUnion b a) = true ∧
      intersectionOverUnion a b = intersectionOverUnion b a := by
  refine ⟨?_, iou_swap a b⟩
  rw [← iou_swap a b]
  rcases intersectionOverUnion_cases a b with ⟨h0, _⟩ | ⟨_, q, hq, _⟩
  · exact absurd h0 h
  · rw [hq]
    simp [FloatVal.eq]

theorem iou_eq_comm_of_union_ne_zero_witness :
    unionArea ⟨0, 0, 10, 10⟩ ⟨5, 5, 10, 10⟩ ≠ 0 ∧
      (FloatVal.eq (intersectionOverUnion ⟨0, 0, 10, 10⟩ ⟨5, 5, 10, 10⟩)
          (intersectionOverUnion ⟨5, 5, 10, 10⟩ ⟨0, 0, 10, 10⟩) = true ∧
        intersectionOverUnion ⟨0, 0, 10, 10⟩ ⟨5, 5, 10, 10⟩ =
          intersectionOverUnion ⟨5, 5, 10, 10⟩ ⟨0, 0, 10, 10⟩) :=
  ⟨by simp [unionArea, intAdd, fitsInt, wrap32, intersectionArea, Rect.inter, Rect.area]; norm_num,
    iou_eq_comm_of_union_ne_zero ⟨0, 0, 10, 10⟩ ⟨5, 5, 10, 10⟩
      (by simp [unionArea, intAdd, fitsInt, wrap32, intersectionArea, Rect.inter, Rect.area]; norm_num)⟩

/-- C8 (fails as stated): `[0,0,32768,32768]` has positive width and height and
an area `2^30` that fits an `int`, but the `int` sum `area + area` wraps to
`-2^31` and the IoU of the rectangle with itself is `-1/3`, not `1`. -/
theorem iou_self_counterexample :
    (0 : Int) < (⟨0, 0, 32768, 32768⟩ : Rect).width ∧
      (0 : Int) < (⟨0, 0, 32768, 32768⟩ : Rect).height ∧
      fitsInt (⟨0, 0, 32768, 32768⟩ : Rect).area ∧
      intersectionOverUnion ⟨0, 0, 32768, 32768⟩ ⟨0, 0, 32768, 32768⟩ ≠ fin 1 := by
  refine ⟨by decide, by decide, by decide, ?_⟩
  rw [iou_overflow_value]
  simp only [ne_eq, FloatVal.fin.injEq]
  norm_num

/-- C8 (amended): for every rectangle `a` with `width > 0` and `height > 0`
whose doubled area `area(a) + area(a)` does not overflow the `int`,
`intersectionOverUnion a a` equals `1`. -/
theorem intersectionOverUnion_self (a : Rect) (hw : 0 < a.width) (hh : 0 < a.height)
    (hfit : fitsInt (a.area + a.area)) :
    intersectionOverUnion a a = fin 1 := by
  have hinter : a.inter a = a := by
    simp only [Rect.inter, max_self, min_self, add_sub_cancel_left]
    rw [if_neg (by omega)]
  have harea : (0 : ℚ) < ((a.area : Int) : ℚ) := by
    have : 0 < a.area := mul_pos hw hh
    exact_mod_cast this
  have hi : intersectionArea a a = ((a.area : Int) : ℚ) := by
    simp only [intersectionArea, hinter]
  have hu : unionArea a a = ((a.area : Int) : ℚ) := by
    simp only [unionArea, hi, intAdd_of_fits _ _ hfit]
    push_cast
    ring
  simp only [intersectionOverUnion, hi, hu, fdiv]
  rw [if_neg (ne_of_gt harea), div_self (ne_of_gt harea)]

theorem intersectionOverUnion_self_witness :
    (0 : Int) < 10 ∧ (0 : Int) < 7 ∧
      fitsInt ((⟨3, 4, 10, 7⟩ : Rect).area + (⟨3, 4, 10, 7⟩ : Rect).area) ∧
      intersectionOverUnion ⟨3, 4, 10, 7⟩ ⟨3, 4, 10, 7⟩ = fin 1 :=
  ⟨by decide, by decide, by decide,
    intersectionOverUnion_self ⟨3, 4, 10, 7⟩ (by decide) (by decide) (by decide)⟩

/-! ## Annotation parsing -/

/-- Without a `;` left in the line the loop of `getCorners` ends and the array
is unchanged. -/
theorem getCornersFrom_no_semicolon (i : Nat) (corners : Corners) :
    ∀ (tail token : List Char), ';' ∉ tail →
      getCornersFrom i token corners tail = .ok corners := by
  intro tail
  induction tail with
  | nil =>
    intro token _
    rfl
  | cons ch rest ih =>
    intro token h
    have h1 : ch ≠ ';' := fun hc => h (by simp [hc])
    have h2 : ';' ∉ rest := fun hc => h (List.mem_cons_of_mem _ hc)
    simp only [getCornersFrom, h1, if_false]
    exact ih _ h2

/-- One round of the loop of `getCorners`: the text up to the next `;` is
converted and stored in `corners[i]`, the loop goes on behind that `;`. -/
theorem getCornersFrom_token (i : Nat) (corners : Corners) (rest : List Char) :
    ∀ (tok token : List Char), ';' ∉ tok →
      getCornersFrom i token corners (tok ++ ';' :: rest) =
        match stoi (token ++ tok) with
        | none => .thrown
        | some v =>
          match corners.set i v with
          | none => .outOfBounds
          | some corners1 => getCornersFrom (i + 1) [] corners1 rest := by
  intro tok
  induction tok with
  | nil =>
    intro token _
    simp [getCornersFrom]
  | cons ch tok ih =>
    intro token h
    have h1 : ch ≠ ';' := fun hc => h (by simp [hc])
    have h2 : ';' ∉ tok := fun hc => h (List.mem_cons_of_mem _ hc)
    rw [List.cons_append, getCornersFrom, if_neg h1, ih _ h2]
    simp

/-- A corner list in the documented format `xmin;xmax;ymin;ymax` fills
`corners[0..2]` only: no `;` follows `ymax`, and `corners[3]` keeps its value. -/
theorem getCorners_documented_format (t0 t1 t2 t3 : List Char) (v0 v1 v2 : Int)
    (corners : Corners)
    (h0 : ';' ∉ t0) (h1 : ';' ∉ t1) (h2 : ';' ∉ t2) (h3 : ';' ∉ t3)
    (s0 : stoi t0 = some v0) (s1 : stoi t1 = some v1) (s2 : stoi t2 = some v2) :
    getCorners (t0 ++ ';' :: (t1 ++ ';' :: (t2 ++ ';' :: t3))) corners =
      .ok ⟨v0, v1, v2, corners.c3⟩ := by
  unfold getCorners
  rw [getCornersFrom_token _ _ _ _ _ h0]
  simp only [List.nil_append, s0, Corners.set]
  rw [getCornersFrom_token _ _ _ _ _ h1]
  simp only [List.nil_append, s1, Corners.set]
  rw [getCornersFrom_token _ _ _ _ _ h2]
  simp only [List.nil_append, s2, Corners.set]
  rw [getCornersFrom_no_semicolon _ _ _ _ h3]

/-- Whether `getCorners` completes does not depend on the content of the array. -/
theorem getCornersFrom_ok_of_ok :
    ∀ (line : List Char) (i : Nat) (token : List Char) (c1 c1r c2 : Corners),
      getCornersFrom i token c1 line = .ok c1r →
      ∃ c2r, getCornersFrom i token c2 line = .ok c2r := by
  intro line
  induction line with
  | nil =>
    intro i token c1 c1r c2 _
    exact ⟨c2, rfl⟩
  | cons ch rest ih =>
    intro i token c1 c1r c2 h
    simp only [getCornersFrom] at h ⊢
    split
    · rename_i hch
      rw [if_pos hch] at h
      cases hs : stoi token with
      | none => simp [hs] at h
      | some v =>
        simp only [hs] at h ⊢
        match i, h with
        | 0, h => exact ih _ _ _ _ _ h
        | 1, h => exact ih _ _ _ _ _ h
        | 2, h => exact ih _ _ _ _ _ h
        | 3, h => exact ih _ _ _ _ _ h
        | _ + 4, h => simp [Corners.set] at h
    · rename_i hch
      rw [if_neg hch] at h
      exact ih _ _ _ _ _ h

/-- The number of rectangles a run of the line loop adds does not depend on the
content of `corners` it starts from. -/
theorem parseLines_count :
    ∀ (lines : List (List Char)) (c1 : Corners) (acc1 rs1 : List Rect) (c2 : Corners)
      (acc2 : List Rect),
      parseLines c1 acc1 lines = .ok rs1 →
      ∃ rs2, parseLines c2 acc2 lines = .ok rs2 ∧
        rs2.length + acc1.length = rs1.length + acc2.length := by
  intro lines
  induction lines with
  | nil =>
    intro c1 acc1 rs1 c2 acc2 h
    simp only [parseLines, Parsed.ok.injEq] at h
    subst h
    exact ⟨acc2, rfl, Nat.add_comm _ _⟩
  | cons line rest ih =>
    intro c1 acc1 rs1 c2 acc2 h
    simp only [parseLines] at h ⊢
    split
    · rename_i hboat
      rw [if_pos hboat] at h
      cases hc : getCorners (splitLabel line).2 c1 with
      | thrown => simp [hc] at h
      | outOfBounds => simp [hc] at h
      | ok c1r =>
        simp only [hc] at h
        obtain ⟨c2r, hc2⟩ := getCornersFrom_ok_of_ok _ _ _ _ _ c2 hc
        change getCorners (splitLabel line).2 c2 = .ok c2r at hc2
        simp only [hc2]
        obtain ⟨rs2, hrs2, hlen⟩ := ih _ _ _ c2r (acc2 ++ [rectOfCorners c2r]) h
        refine ⟨rs2, hrs2, ?_⟩
        simp only [List.length_append, List.length_cons, List.length_nil] at hlen
        omega
    · rename_i hboat
      rw [if_neg hboat] at h
      exact ih _ _ _ _ _ h

/-- In the line loop a line labelled `boat` is never skipped: a completed run
has one rectangle more than the run over the lines without it. -/
theorem parseLines_boat_line (line : List Char) (post : List (List Char))
    (hboat : (splitLabel line).1 = "boat".toList) :
    ∀ (front : List (List Char)) (corners : Corners) (acc rs : List Rect),
      parseLines corners acc (front ++ line :: post) = .ok rs →
      ∃ rs1, parseLines corners acc (front ++ post) = .ok rs1 ∧
        rs.length = rs1.length + 1 := by
  intro front
  induction front with
  | nil =>
    intro corners acc rs h
    simp only [List.nil_append, parseLines, hboat, if_true] at h ⊢
    cases hc : getCorners (splitLabel line).2 corners with
    | thrown => simp [hc] at h
    | outOfBounds => simp [hc] at h
    | ok c1 =>
      simp only [hc] at h
      obtain ⟨rs1, hrs1, hlen⟩ := parseLines_count _ _ _ _ corners acc h
      refine ⟨rs1, hrs1, ?_⟩
      simp only [List.length_append, List.length_cons, List.length_nil] at hlen
      omega
  | cons l front ih =>
    intro corners acc rs h
    simp only [List.cons_append, parseLines] at h ⊢
    split
    · rename_i hl
      rw [if_pos hl] at h
      cases hc : getCorners (splitLabel l).2 corners with
      | thrown => simp [hc] at h
      | outOfBounds => simp [hc] at h
      | ok c1 =>
        simp only [hc] at h ⊢
        exact ih _ _ _ h
    · rename_i hl
      rw [if_neg hl] at h
      exact ih _ _ _ h

/-- The lines of a text that continues behind a line break. -/
theorem getLines_append_newline (post : List Char) :
    ∀ (front cur : List Char),
      getLines cur (front ++ '\n' :: post) =
        getLines cur (front ++ ['\n']) ++ getLines [] post := by
  intro front
  induction front with
  | nil =>
    intro cur
    simp [getLines]
  | cons ch front ih =>
    intro cur
    rw [List.cons_append, List.cons_append, getLines, getLines]
    split
    · rw [ih]
      simp
    · rw [ih]

/-- A line without a line break, followed by one, is delivered as it stands. -/
theorem getLines_single (line : List Char) (h : '\n' ∉ line) :
    ∀ cur : List Char, getLines cur (line ++ ['\n']) = [cur ++ line] := by
  induction line with
  | nil =>
    intro cur
    simp [getLines]
  | cons ch line ih =>
    intro cur
    have h1 : ch ≠ '\n' := fun hc => h (by simp [hc])
    have h2 : '\n' ∉ line := fun hc => h (List.mem_cons_of_mem _ hc)
    rw [List.cons_append, getLines, if_neg h1, ih h2]
    simp

/-- The lines of a text around one of its lines: `front` is empty or ends with
a line break, `line` holds none and is followed by one. -/
theorem getLines_around (front line post : List Char)
    (hfront : front = [] ∨ ∃ p, front = p ++ ['\n']) (hline : '\n' ∉ line) :
    getLines [] (front ++ line ++ '\n' :: post) =
        getLines [] front ++ line :: getLines [] post ∧
      getLines [] (front ++ post) = getLines [] front ++ getLines [] post := by
  have hl : getLines [] (line ++ '\n' :: post) = line :: getLines [] post := by
    rw [getLines_append_newline, getLines_single line hline]
    simp
  rcases hfront with h0 | ⟨p, hp⟩
  · subst h0
    simp only [List.nil_append, hl, getLines]
    simp
  · subst hp
    constructor
    · have e : p ++ ['\n'] ++ line ++ '\n' :: post = p ++ '\n' :: (line ++ '\n' :: post) := by
        simp
      rw [e, getLines_append_newline, hl]
    · have e : p ++ ['\n'] ++ post = p ++ '\n' :: post := by simp
      rw [e, getLines_append_newline]

/-! ## Annotation parsing: stated properties -/

/-- C9 (the code departs from the claim): on the annotation text
`boat:10;50;20;60`, `hiddenboat:0;5;0;5` (one per line) the code stores
`xmin`, `xmax` and `ymin` but never `ymax`, which no `;` follows: the rectangle
emitted has height `corners[3] - 20` for whatever the uninitialised `corners[3]`
holds, and is not `{10, 20, 40, 40}` when that is `0`. -/
theorem getGroundTruth_documented_format_loses_ymax :
    (∀ stack : Corners,
      getGroundTruth stack (some "boat:10;50;20;60\nhiddenboat:0;5;0;5\n".toList) =
        .ok [⟨10, 20, 40, stack.c3 - 20⟩]) ∧
      getGroundTruth ⟨0, 0, 0, 0⟩ (some "boat:10;50;20;60\nhiddenboat:0;5;0;5\n".toList) ≠
        .ok [⟨10, 20, 40, 40⟩] := by
  constructor
  · intro stack
    rfl
  · decide

/-- With a `;` behind every value, `ymax` included, the same two lines give the
rectangle `{10, 20, 40, 40}` whatever the array held. -/
theorem getGroundTruth_terminated_values (stack : Corners) :
    getGroundTruth stack (some "boat:10;50;20;60;\nhiddenboat:0;5;0;5;\n".toList) =
      .ok [⟨10, 20, 40, 40⟩] := by
  rfl

/-- C10 (fails as stated): the second line of `boat:1;2;3;4;`, `boat:5;` has
fewer than four values, yet it contributes a rectangle, built from its one
value and the three left over from the first line, so the result differs from
that of the text without the line; and the non-numeric `boat:x;` aborts the
parse. -/
theorem getGroundTruth_malformed_line_counterexample :
    getGroundTruth ⟨0, 0, 0, 0⟩ (some "boat:1;2;3;4;\nboat:5;\n".toList) =
        .ok [⟨1, 3, 1, 1⟩, ⟨5, 3, -3, 1⟩] ∧
      getGroundTruth ⟨0, 0, 0, 0⟩ (some "boat:1;2;3;4;\n".toList) = .ok [⟨1, 3, 1, 1⟩] ∧
      getGroundTruth ⟨0, 0, 0, 0⟩ (some "boat:1;2;3;4;\nboat:x;\n".toList) = .thrown := by
  decide

/-- In a completed run of the line loop the corner list of every line labelled
`boat` was read without a fault. -/
theorem parseLines_boat_line_read (line : List Char) (post : List (List Char))
    (hboat : (splitLabel line).1 = "boat".toList) :
    ∀ (front : List (List Char)) (corners : Corners) (acc rs : List Rect),
      parseLines corners acc (front ++ line :: post) = .ok rs →
      ∃ c c1, getCorners (splitLabel line).2 c = .ok c1 := by
  intro front
  induction front with
  | nil =>
    intro corners acc rs h
    simp only [List.nil_append, parseLines, hboat, if_true] at h
    cases hc : getCorners (splitLabel line).2 corners with
    | thrown => simp [hc] at h
    | outOfBounds => simp [hc] at h
    | ok c1 => exact ⟨corners, c1, hc⟩
  | cons l front ih =>
    intro corners acc rs h
    simp only [List.cons_append, parseLines] at h
    split at h
    · cases hc : getCorners (splitLabel l).2 corners with
      | thrown => simp [hc] at h
      | outOfBounds => simp [hc] at h
      | ok c1 =>
        simp only [hc] at h
        exact ih _ _ _ h
    · exact ih _ _ _ h

/-- C10 (amended): a line labelled `boat` is never skipped.  If reading its
corner list throws (`std::stoi` on a value that is not numeric), the exception
is not caught and parsing the text gives no result; and whenever parsing the
text completes, the result has exactly one rectangle more than the result of
parsing the text with that line removed, which completes as well. -/
theorem getGroundTruth_boat_line_not_skipped (stack : Corners)
    (front line post : List Char)
    (hfront : front = [] ∨ ∃ p, front = p ++ ['\n']) (hline : '\n' ∉ line)
    (hboat : (splitLabel line).1 = "boat".toList) :
    ((∀ c, getCorners (splitLabel line).2 c = .thrown) →
        ∀ rs, getGroundTruth stack (some (front ++ line ++ '\n' :: post)) ≠ .ok rs) ∧
      (∀ rs, getGroundTruth stack (some (front ++ line ++ '\n' :: post)) = .ok rs →
        ∃ rs1, getGroundTruth stack (some (front ++ post)) = .ok rs1 ∧
          rs.length = rs1.length + 1) := by
  obtain ⟨e1, e2⟩ := getLines_around front line post hfront hline
  constructor
  · intro hthrow rs h
    simp only [getGroundTruth, e1] at h
    obtain ⟨c, c1, hc⟩ := parseLines_boat_line_read line _ hboat _ _ _ _ h
    rw [hthrow c] at hc
    exact absurd hc (by simp)
  · intro rs h
    simp only [getGroundTruth, e1] at h
    simp only [getGroundTruth, e2]
    exact parseLines_boat_line line _ hboat _ _ _ _ h

theorem getGroundTruth_boat_line_not_skipped_witness :
    ("boat:1;2;3;4;\n".toList = [] ∨ ∃ p, "boat:1;2;3;4;\n".toList = p ++ ['\n']) ∧
      '\n' ∉ "boat:5;".toList ∧
      (splitLabel "boat:5;".toList).1 = "boat".toList ∧
      getGroundTruth ⟨0, 0, 0, 0⟩
        (some ("boat:1;2;3;4;\n".toList ++ "boat:5;".toList ++ '\n' :: [])) =
        .ok [⟨1, 3, 1, 1⟩, ⟨5, 3, -3, 1⟩] ∧
      ((∀ c, getCorners (splitLabel "boat:5;".toList).2 c = .thrown) →
          ∀ rs, getGroundTruth ⟨0, 0, 0, 0⟩
            (some ("boat:1;2;3;4;\n".toList ++ "boat:5;".toList ++ '\n' :: [])) ≠ .ok rs) ∧
      (∀ rs, getGroundTruth ⟨0, 0, 0, 0⟩
          (some ("boat:1;2;3;4;\n".toList ++ "boat:5;".toList ++ '\n' :: [])) = .ok rs →
        ∃ rs1, getGroundTruth ⟨0, 0, 0, 0⟩ (some ("boat:1;2;3;4;\n".toList ++ [])) = .ok rs1 ∧
          rs.length = rs1.length + 1) :=
  ⟨Or.inr ⟨"boat:1;2;3;4;".toList, by decide⟩, by decide, by decide, by decide,
    getGroundTruth_boat_line_not_skipped ⟨0, 0, 0, 0⟩ "boat:1;2;3;4;\n".toList
      "boat:5;".toList [] (Or.inr ⟨"boat:1;2;3;4;".toList, by decide⟩) (by decide)
      (by decide)⟩

/-- The corner list `x;` makes `std::stoi` throw whatever the array holds, and
a text with the line `boat:x;` has no parse result. -/
theorem getGroundTruth_non_numeric_aborts (stack : Corners) (post : List Char) :
    (∀ c, getCorners (splitLabel "boat:x;".toList).2 c = .thrown) ∧
      ∀ rs, getGroundTruth stack
        (some ("boat:1;2;3;4;\n".toList ++ "boat:x;".toList ++ '\n' :: post)) ≠ .ok rs := by
  have hthrow : ∀ c, getCorners (splitLabel "boat:x;".toList).2 c = .thrown := fun _ => rfl
  have hline : '\n' ∉ "boat:x;".toList := by decide
  have hboat : (splitLabel "boat:x;".toList).1 = "boat".toList := by decide
  obtain ⟨e1, _⟩ := getLines_around "boat:1;2;3;4;\n".toList "boat:x;".toList post
    (Or.inr ⟨"boat:1;2;3;4;".toList, by decide⟩) hline
  refine ⟨hthrow, fun rs h => ?_⟩
  simp only [getGroundTruth, e1] at h
  obtain ⟨c, c1, hc⟩ := parseLines_boat_line_read _ _ hboat _ _ _ _ h
  rw [hthrow c] at hc
  exact absurd hc (by simp)

/-! ## Region filtering -/

theorem proposalsLoop_eq (max_n : Int) :
    ∀ (rects : List Rect) (count : Int) (proposals : List Rect),
      proposalsLoop max_n rects count proposals =
        proposals ++ (rects.filter (fun r => decide (1000 < r.area))).take (max_n - count).toNat := by
  intro rects
  induction rects with
  | nil =>
    intro count proposals
    simp [proposalsLoop]
  | cons r rs ih =>
    intro count proposals
    simp only [proposalsLoop]
    by_cases hc : count < max_n
    · rw [if_pos hc]
      obtain ⟨k, hk⟩ : ∃ k : Nat, (max_n - count).toNat = k + 1 :=
        ⟨(max_n - count).toNat - 1, by omega⟩
      have hk1 : (max_n - (count + 1)).toNat = k := by omega
      by_cases ha : 1000 < r.area
      · rw [if_pos ha, ih, hk1, List.filter_cons, if_pos (by simpa using ha), hk]
        simp
      · rw [if_neg ha, ih, List.filter_cons, if_neg (by simpa using ha)]
    · rw [if_neg hc]
      have h0 : (max_n - count).toNat = 0 := by omega
      rw [h0]
      simp

/-- C11: the filtering loop of `getProposals` returns the first `max_n`
elements (all when fewer exist) of the regions of area strictly greater than
1000, in input order; over the areas 500, 2000, 3000, 4000 with `max_n = 2` these
are the regions of area 2000 and 3000. -/
theorem getProposals_eq_take_filter :
    (∀ (rects : List Rect) (max_n : Int),
      getProposals rects max_n =
        (rects.filter (fun r => decide (1000 < r.area))).take max_n.toNat) ∧
      getProposals [⟨0, 0, 50, 10⟩, ⟨0, 0, 50, 40⟩, ⟨0, 0, 50, 60⟩, ⟨0, 0, 50, 80⟩] 2 =
        [⟨0, 0, 50, 40⟩, ⟨0, 0, 50, 60⟩] := by
  constructor
  · intro rects max_n
    rw [getProposals, proposalsLoop_eq]
    simp
  · decide

/-! ## Best match -/

/-- With an `int` sum of areas that does not overflow and a non-zero
denominator the IoU is a finite value that is not negative. -/
theorem iou_fin_of_union_ne_zero (a b : Rect) (hfit : fitsInt (a.area + b.area))
    (h : unionArea a b ≠ 0) :
    ∃ q : ℚ, intersectionOverUnion a b = fin q ∧ 0 ≤ q := by
  obtain ⟨q, hq, hq0, _⟩ := intersectionOverUnion_of_fits a b hfit h
  exact ⟨q, hq, hq0⟩

/-- One pass of the loop of `getMaxResponseIOU` keeps the pair the specified
best match of the boxes visited so far. -/
theorem isBestMatch_snoc (gt_box : Rect) (pre : List Rect) (r : Rect) (best : FloatVal × Nat)
    (hfin : ∀ x ∈ pre ++ [r], ∃ q : ℚ, intersectionOverUnion gt_box x = fin q ∧ 0 ≤ q)
    (hbest : ∃ q : ℚ, best.1 = fin q ∧ 0 ≤ q)
    (hinv : IsBestMatch gt_box pre best) :
    (∃ q : ℚ, (if gt (intersectionOverUnion gt_box r) best.1 then
          (intersectionOverUnion gt_box r, pre.length) else best).1 = fin q ∧ 0 ≤ q) ∧
      IsBestMatch gt_box (pre ++ [r])
        (if gt (intersectionOverUnion gt_box r) best.1 then
          (intersectionOverUnion gt_box r, pre.length) else best) := by
  obtain ⟨qm, hm, hqm⟩ := hbest
  obtain ⟨q, hv, hq⟩ := hfin r (by simp)
  obtain ⟨m, k⟩ := best
  simp only at hm
  subst hm
  have hne : pre ++ [r] ≠ [] := by simp
  by_cases hgt : qm < q
  · have hgt1 : gt (intersectionOverUnion gt_box r) (fin qm) = true := by
      simp [hv, gt, lt, hgt]
    rw [if_pos hgt1]
    refine ⟨⟨q, hv, hq⟩, fun h0 => absurd h0 hne, fun _ => ⟨?_, r, ?_, rfl, ?_⟩⟩
    · intro x hx
      rcases List.mem_append.mp hx with hx | hx
      · by_cases hp : pre = []
        · subst hp
          simp at hx
        · obtain ⟨qx, hqx, _⟩ := hfin x (by simp [hx])
          have := (hinv.2 hp).1 x hx
          simp only [hqx, le, decide_eq_true_eq] at this
          simp only [hqx, hv, le, decide_eq_true_eq]
          linarith
      · simp only [List.mem_singleton] at hx
        subst hx
        simp [hv, le]
    · simp
    · intro j r1 hj hr1
      simp only at hj
      have hr1p : pre[j]? = some r1 := by
        rw [List.getElem?_append_left hj] at hr1
        exact hr1
      have hmem : r1 ∈ pre := List.getElem?_mem hr1p
      have hp : pre ≠ [] := List.ne_nil_of_mem hmem
      obtain ⟨qx, hqx, _⟩ := hfin r1 (by simp [hmem])
      have := (hinv.2 hp).1 r1 hmem
      simp only [hqx, le, decide_eq_true_eq] at this
      simp only [hqx, hv, ne_eq, FloatVal.fin.injEq]
      intro he
      linarith
  · have hgt1 : ¬ gt (intersectionOverUnion gt_box r) (fin qm) = true := by
      simp [hv, gt, lt, hgt]
    rw [if_neg hgt1]
    refine ⟨⟨qm, rfl, hqm⟩, fun h0 => absurd h0 hne, fun _ => ?_⟩
    have hle : le (intersectionOverUnion gt_box r) (fin qm) = true := by
      simp only [hv, le, decide_eq_true_eq]
      linarith
    by_cases hp : pre = []
    · subst hp
      have h00 := hinv.1 rfl
      simp only [Prod.mk.injEq, FloatVal.fin.injEq] at h00
      obtain ⟨hq0, hk0⟩ := h00
      subst hq0
      subst hk0
      have hqz : q = 0 := by linarith
      subst hqz
      refine ⟨?_, r, by simp, hv, ?_⟩
      · intro x hx
        simp only [List.nil_append, List.mem_singleton] at hx
        subst hx
        exact hle
      · intro j r1 hj _
        simp at hj
    · obtain ⟨hall, r0, hr0, hiou0, hmin⟩ := hinv.2 hp
      have hk : k < pre.length := by
        by_contra hc
        simp only at hr0
        rw [List.getElem?_eq_none (not_lt.mp hc)] at hr0
        exact absurd hr0 (by simp)
      refine ⟨?_, r0, ?_, hiou0, ?_⟩
      · intro x hx
        rcases List.mem_append.mp hx with hx | hx
        · exact hall x hx
        · simp only [List.mem_singleton] at hx
          subst hx
          exact hle
      · simp only at hr0 ⊢
        rw [List.getElem?_append_left hk]
        exact hr0
      · intro j r1 hj hr1
        simp only at hj
        have hjl : j < pre.length := lt_trans hj hk
        rw [List.getElem?_append_left hjl] at hr1
        exact hmin j r1 hj hr1

/-- The loop of `getMaxResponseIOU` ends on the specified best match when no
IoU is `NaN`. -/
theorem maxResponseLoop_isBestMatch (gt_box : Rect) :
    ∀ (rs pre : List Rect) (best : FloatVal × Nat),
      (∀ x ∈ pre ++ rs, ∃ q : ℚ, intersectionOverUnion gt_box x = fin q ∧ 0 ≤ q) →
      (∃ q : ℚ, best.1 = fin q ∧ 0 ≤ q) →
      IsBestMatch gt_box pre best →
      IsBestMatch gt_box (pre ++ rs) (maxResponseLoop gt_box rs pre.length best) := by
  intro rs
  induction rs with
  | nil =>
    intro pre best _ _ hinv
    simpa [maxResponseLoop] using hinv
  | cons r rs ih =>
    intro pre best hfin hbest hinv
    have hfin1 : ∀ x ∈ pre ++ [r], ∃ q : ℚ, intersectionOverUnion gt_box x = fin q ∧ 0 ≤ q := by
      intro x hx
      apply hfin x
      rcases List.mem_append.mp hx with hx | hx
      · simp [hx]
      · simp only [List.mem_singleton] at hx
        simp [hx]
    obtain ⟨hb1, hi1⟩ := isBestMatch_snoc gt_box pre r best hfin1 hbest hinv
    have happ : pre ++ r :: rs = (pre ++ [r]) ++ rs := by simp
    have hlen : pre.length + 1 = (pre ++ [r]).length := by simp
    rw [maxResponseLoop, happ]
    split
    · rename_i hgt
      rw [if_pos hgt] at hb1 hi1
      rw [hlen]
      exact ih _ _ (by rw [← happ]; exact hfin) hb1 hi1
    · rename_i hgt
      rw [if_neg hgt] at hb1 hi1
      rw [hlen]
      exact ih _ _ (by rw [← happ]; exact hfin) hb1 hi1

/-- The IoU of `[0,0,46340,46340]` and `[0,0,400,400]`: the areas `2147395600`
and `160000` fit an `int`, their `int` sum wraps to a negative value, and the
result is negative. -/
theorem iou_overflow_negative :
    intersectionOverUnion ⟨0, 0, 46340, 46340⟩ ⟨0, 0, 400, 400⟩ =
      fin (-10000 / 134223231) := by
  simp [intersectionOverUnion, intersectionArea, unionArea, intAdd, fitsInt, wrap32, Rect.inter, Rect.area, fdiv]
  norm_num

/-- C12 (fails as stated): for a zero-area ground-truth box and a zero-area
prediction the IoU is `NaN`, which the loop never takes as a maximum: the call
returns `(0, 0)`, and `0` is not the IoU of the box at index 0.  For the box
`[0,0,46340,46340]` and the prediction `[0,0,400,400]` the `int` sum of the areas
overflows, the IoU is negative, and the call returns `(0, 0)` again. -/
theorem getMaxResponseIOU_counterexample :
    (getMaxResponseIOU [⟨0, 0, 0, 0⟩] ⟨0, 0, 0, 0⟩ = (fin 0, 0) ∧
      ¬ IsBestMatch ⟨0, 0, 0, 0⟩ [⟨0, 0, 0, 0⟩]
        (getMaxResponseIOU [⟨0, 0, 0, 0⟩] ⟨0, 0, 0, 0⟩)) ∧
      (getMaxResponseIOU [⟨0, 0, 400, 400⟩] ⟨0, 0, 46340, 46340⟩ = (fin 0, 0) ∧
        ¬ IsBestMatch ⟨0, 0, 46340, 46340⟩ [⟨0, 0, 400, 400⟩]
          (getMaxResponseIOU [⟨0, 0, 400, 400⟩] ⟨0, 0, 46340, 46340⟩)) := by
  have hnan : intersectionOverUnion ⟨0, 0, 0, 0⟩ ⟨0, 0, 0, 0⟩ = nan := by
    simp [intersectionOverUnion, intersectionArea, unionArea, intAdd, fitsInt, wrap32, Rect.inter, Rect.area, fdiv]
  have hres : getMaxResponseIOU [⟨0, 0, 0, 0⟩] ⟨0, 0, 0, 0⟩ = (fin 0, 0) := by
    simp only [getMaxResponseIOU, maxResponseLoop, hnan]
    rfl
  have hneg := iou_overflow_negative
  have gneg : gt (fin (-10000 / 134223231)) (fin 0) = false := by
    simp [gt, lt]
  have hres2 : getMaxResponseIOU [⟨0, 0, 400, 400⟩] ⟨0, 0, 46340, 46340⟩ = (fin 0, 0) := by
    simp only [getMaxResponseIOU, maxResponseLoop, hneg, gneg, Bool.false_eq_true, if_false]
  refine ⟨⟨hres, ?_⟩, hres2, ?_⟩
  · rw [hres]
    intro h
    have := (h.2 (by simp)).1 ⟨0, 0, 0, 0⟩ (by simp)
    rw [hnan] at this
    exact absurd this (by simp [le])
  · rw [hres2]
    intro h
    obtain ⟨r, hr, hiou, _⟩ := (h.2 (by simp)).2
    simp only [List.getElem?_cons_zero, Option.some.injEq] at hr
    subst hr
    rw [hneg] at hiou
    simp only [FloatVal.fin.injEq] at hiou
    norm_num at hiou

/-- C12 (amended): for every prediction list and ground-truth box such that,
for every prediction, the `int` sum of its area and the box's does not overflow
and the denominator `area + area - intersection` is not zero,
`getMaxResponseIOU` returns `(0, 0)` when the list is empty and otherwise
`(m, i)` with `m` the maximum IoU and `i` the smallest index attaining it. -/
theorem getMaxResponseIOU_isBestMatch (rects : List Rect) (gt_box : Rect)
    (hfit : ∀ r ∈ rects, fitsInt (gt_box.area + r.area))
    (h : ∀ r ∈ rects, unionArea gt_box r ≠ 0) :
    IsBestMatch gt_box rects (getMaxResponseIOU rects gt_box) := by
  have key := maxResponseLoop_isBestMatch gt_box rects [] (fin 0, 0)
    (fun x hx => iou_fin_of_union_ne_zero gt_box x (hfit x (by simpa using hx))
      (h x (by simpa using hx)))
    ⟨0, rfl, le_refl _⟩
    ⟨fun _ => rfl, fun hne => absurd rfl hne⟩
  simpa [getMaxResponseIOU] using key

theorem getMaxResponseIOU_isBestMatch_witness :
    (∀ r ∈ [(⟨0, 0, 10, 8⟩ : Rect), ⟨0, 0, 10, 3⟩],
        fitsInt ((⟨0, 0, 10, 10⟩ : Rect).area + r.area)) ∧
      (∀ r ∈ [(⟨0, 0, 10, 8⟩ : Rect), ⟨0, 0, 10, 3⟩], unionArea ⟨0, 0, 10, 10⟩ r ≠ 0) ∧
      getMaxResponseIOU [⟨0, 0, 10, 8⟩, ⟨0, 0, 10, 3⟩] ⟨0, 0, 10, 10⟩ = (fin (4 / 5), 0) ∧
      IsBestMatch ⟨0, 0, 10, 10⟩ [⟨0, 0, 10, 8⟩, ⟨0, 0, 10, 3⟩]
        (getMaxResponseIOU [⟨0, 0, 10, 8⟩, ⟨0, 0, 10, 3⟩] ⟨0, 0, 10, 10⟩) := by
  have hf : ∀ r ∈ [(⟨0, 0, 10, 8⟩ : Rect), ⟨0, 0, 10, 3⟩],
      fitsInt ((⟨0, 0, 10, 10⟩ : Rect).area + r.area) := by
    intro r hr
    simp only [List.mem_cons, List.mem_singleton, List.not_mem_nil, or_false] at hr
    rcases hr with hr | hr
    · subst hr
      decide
    · subst hr
      decide
  have hu : ∀ r ∈ [(⟨0, 0, 10, 8⟩ : Rect), ⟨0, 0, 10, 3⟩], unionArea ⟨0, 0, 10, 10⟩ r ≠ 0 := by
    intro r hr
    simp only [List.mem_cons, List.mem_singleton, List.not_mem_nil, or_false] at hr
    rcases hr with hr | hr
    · subst hr
      simp [unionArea, intAdd, fitsInt, wrap32, intersectionArea, Rect.inter, Rect.area]
      norm_num
    · subst hr
      simp [unionArea, intAdd, fitsInt, wrap32, intersectionArea, Rect.inter, Rect.area]
      norm_num
  have ha : intersectionOverUnion ⟨0, 0, 10, 10⟩ ⟨0, 0, 10, 8⟩ = fin (4 / 5) := by
    simp [intersectionOverUnion, intersectionArea, unionArea, intAdd, fitsInt, wrap32, Rect.inter, Rect.area, fdiv]
    norm_num
  have hb : intersectionOverUnion ⟨0, 0, 10, 10⟩ ⟨0, 0, 10, 3⟩ = fin (3 / 10) := by
    simp [intersectionOverUnion, intersectionArea, unionArea, intAdd, fitsInt, wrap32, Rect.inter, Rect.area, fdiv]
    norm_num
  have g1 : gt (fin (4 / 5)) (fin 0) = true := by
    simp [gt, lt]
  have g2 : gt (fin (3 / 10)) (fin (4 / 5)) = false := by
    simp [gt, lt]
    norm_num
  refine ⟨hf, hu, ?_, getMaxResponseIOU_isBestMatch _ _ hf hu⟩
  simp only [getMaxResponseIOU, maxResponseLoop, ha, hb, g1, g2, if_true, Bool.false_eq_true,
    if_false]

/-! ## Evaluation against the ground truth -/

/-- The loop of `getMaxResponseIOU` keeps `max_iou` a finite value that is not
negative, and once it is positive `max_i` is the index of a visited box whose
IoU it is. -/
theorem maxResponseLoop_index (gt_box : Rect) :
    ∀ (rs pre : List Rect) (best : FloatVal × Nat),
      (∃ q : ℚ, best.1 = fin q ∧ 0 ≤ q) →
      (gt best.1 (fin 0) = true →
        ∃ r, pre[best.2]? = some r ∧ intersectionOverUnion gt_box r = best.1) →
      (∃ q : ℚ, (maxResponseLoop gt_box rs pre.length best).1 = fin q ∧ 0 ≤ q) ∧
        (gt (maxResponseLoop gt_box rs pre.length best).1 (fin 0) = true →
          ∃ r, (pre ++ rs)[(maxResponseLoop gt_box rs pre.length best).2]? = some r ∧
            intersectionOverUnion gt_box r = (maxResponseLoop gt_box rs pre.length best).1) := by
  intro rs
  induction rs with
  | nil =>
    intro pre best hb hi
    simpa [maxResponseLoop] using ⟨hb, hi⟩
  | cons r rs ih =>
    intro pre best hb hi
    have happ : pre ++ r :: rs = (pre ++ [r]) ++ rs := by simp
    have hlen : pre.length + 1 = (pre ++ [r]).length := by simp
    rw [maxResponseLoop, happ, hlen]
    split
    · rename_i hgt
      obtain ⟨qm, hm, hqm⟩ := hb
      have hv : ∃ q : ℚ, intersectionOverUnion gt_box r = fin q ∧ 0 ≤ q := by
        rcases intersectionOverUnion_cases gt_box r with ⟨_, hn⟩ | ⟨_, q, hq, _⟩
        · rw [hn, hm] at hgt
          simp [gt, lt] at hgt
        · rw [hq, hm] at hgt
          simp only [gt, lt, decide_eq_true_eq] at hgt
          exact ⟨q, hq, le_trans hqm (le_of_lt hgt)⟩
      refine ih _ _ hv (fun _ => ⟨r, ?_, rfl⟩)
      simp
    · refine ih _ _ hb (fun hpos => ?_)
      obtain ⟨r0, hr0, hiou⟩ := hi hpos
      have hk : best.2 < pre.length := by
        by_contra hc
        rw [List.getElem?_eq_none (not_lt.mp hc)] at hr0
        exact absurd hr0 (by simp)
      exact ⟨r0, by rw [List.getElem?_append_left hk]; exact hr0, hiou⟩

/-- A positive `max_iou` comes with an index inside the list, that of a box
with this IoU; otherwise `max_iou` is `0`. -/
theorem getMaxResponseIOU_index (rects : List Rect) (gt_box : Rect) :
    (gt (getMaxResponseIOU rects gt_box).1 (fin 0) = true →
        ∃ r, rects[(getMaxResponseIOU rects gt_box).2]? = some r ∧
          intersectionOverUnion gt_box r = (getMaxResponseIOU rects gt_box).1) ∧
      (gt (getMaxResponseIOU rects gt_box).1 (fin 0) = false →
        (getMaxResponseIOU rects gt_box).1 = fin 0) := by
  have key := maxResponseLoop_index gt_box rects [] (fin 0, 0) ⟨0, rfl, le_refl _⟩
    (fun h => absurd h (by simp [gt, lt]))
  simp only [List.length_nil, List.nil_append] at key
  obtain ⟨⟨q, hq, hq0⟩, hidx⟩ := key
  refine ⟨hidx, fun hng => ?_⟩
  change (maxResponseLoop gt_box rects 0 (fin 0, 0)).1 = fin 0
  rw [hq]
  change gt (maxResponseLoop gt_box rects 0 (fin 0, 0)).1 (fin 0) = false at hng
  rw [hq] at hng
  simp only [gt, lt, decide_eq_false_iff_not, not_lt] at hng
  have : q = 0 := le_antisymm hng hq0
  rw [this]

theorem perm_cons_eraseIdx :
    ∀ (l : List Rect) (k : Nat) (b : Rect), l[k]? = some b → l.Perm (b :: l.eraseIdx k) := by
  intro l
  induction l with
  | nil =>
    intro k b h
    simp at h
  | cons a l ih =>
    intro k b h
    cases k with
    | zero =>
      simp only [List.getElem?_cons_zero, Option.some.injEq] at h
      subst h
      simp
    | succ k =>
      simp only [List.getElem?_cons_succ] at h
      simp only [List.eraseIdx_cons_succ]
      exact ((ih k b h).cons a).trans (List.Perm.swap b a _)

/-- The evaluation loop never erases outside the pool and follows the specified
policy; the boxes it marks as matched and the boxes it leaves are together the
boxes it started from. -/
theorem evaluationLoop_accounts :
    ∀ (ground_truth final_boxes matched : List Rect),
      ∃ ms rest, evaluationLoop ground_truth final_boxes matched = some (matched ++ ms, rest) ∧
        Evaluates ground_truth final_boxes ms rest ∧
        (ms ++ rest).Perm final_boxes ∧
        ms.length ≤ ground_truth.length := by
  intro ground_truth
  induction ground_truth with
  | nil =>
    intro final_boxes matched
    exact ⟨[], final_boxes, by simp [evaluationLoop], Evaluates.done _, List.Perm.refl _,
      by simp⟩
  | cons g gs ih =>
    intro final_boxes matched
    simp only [evaluationLoop]
    split
    · rename_i hpos
      obtain ⟨box, hbox, hiou⟩ := (getMaxResponseIOU_index final_boxes g).1 hpos
      simp only [hbox]
      obtain ⟨ms, rest, hrun, hev, hperm, hlen⟩ :=
        ih (final_boxes.eraseIdx (getMaxResponseIOU final_boxes g).2) (matched ++ [box])
      refine ⟨box :: ms, rest, ?_, Evaluates.matched g gs final_boxes box ms rest hpos hbox
        hiou hev, ?_, ?_⟩
      · rw [hrun]
        simp
      · have hp := perm_cons_eraseIdx final_boxes _ box hbox
        exact (List.Perm.cons box hperm).trans hp.symm
      · simp only [List.length_cons]
        omega
    · rename_i hpos
      rw [Bool.not_eq_true] at hpos
      obtain ⟨ms, rest, hrun, hev, hperm, hlen⟩ := ih final_boxes matched
      refine ⟨ms, rest, hrun, Evaluates.undetected g gs final_boxes ms rest
        ((getMaxResponseIOU_index final_boxes g).2 hpos) hev, hperm, ?_⟩
      simp only [List.length_cons]
      omega

/-- C13: the evaluation of an image with a non-empty list of final boxes
completes (every erase is at an index inside the remaining pool) and follows
the specified policy: each ground-truth box with `max_iou > 0` takes the
prediction of that IoU at `max_i` out of the pool, each with `max_iou == 0`
leaves the pool as it is.  The matched boxes and the boxes left over are
together exactly the original boxes, so no box is matched twice and their
numbers add up to the original number. -/
theorem evaluateImage_accounts (ground_truth final_boxes : List Rect)
    (hne : final_boxes ≠ []) :
    ∃ matched rest, evaluateImage ground_truth final_boxes = some (matched, rest) ∧
      Evaluates ground_truth final_boxes matched rest ∧
      (matched ++ rest).Perm final_boxes ∧
      matched.length + rest.length = final_boxes.length ∧
      matched.length ≤ ground_truth.length := by
  obtain ⟨ms, rest, hrun, hev, hperm, hlen⟩ :=
    evaluationLoop_accounts ground_truth final_boxes []
  refine ⟨ms, rest, ?_, hev, hperm, ?_, hlen⟩
  · rw [evaluateImage, if_neg hne, hrun]
    simp
  · have := hperm.length_eq
    simpa using this

theorem evaluateImage_accounts_witness :
    [(⟨0, 0, 10, 8⟩ : Rect), ⟨50, 50, 10, 10⟩] ≠ [] ∧
      evaluateImage [⟨0, 0, 10, 10⟩, ⟨100, 100, 10, 10⟩] [⟨0, 0, 10, 8⟩, ⟨50, 50, 10, 10⟩] =
        some ([⟨0, 0, 10, 8⟩], [⟨50, 50, 10, 10⟩]) ∧
      ∃ matched rest,
        evaluateImage [⟨0, 0, 10, 10⟩, ⟨100, 100, 10, 10⟩] [⟨0, 0, 10, 8⟩, ⟨50, 50, 10, 10⟩] =
          some (matched, rest) ∧
        Evaluates [⟨0, 0, 10, 10⟩, ⟨100, 100, 10, 10⟩] [⟨0, 0, 10, 8⟩, ⟨50, 50, 10, 10⟩]
          matched rest ∧
        (matched ++ rest).Perm [⟨0, 0, 10, 8⟩, ⟨50, 50, 10, 10⟩] ∧
        matched.length + rest.length = [(⟨0, 0, 10, 8⟩ : Rect), ⟨50, 50, 10, 10⟩].length ∧
        matched.length ≤ [(⟨0, 0, 10, 10⟩ : Rect), ⟨100, 100, 10, 10⟩].length := by
  have i1 : intersectionOverUnion ⟨0, 0, 10, 10⟩ ⟨0, 0, 10, 8⟩ = fin (4 / 5) := by
    simp [intersectionOverUnion, intersectionArea, unionArea, intAdd, fitsInt, wrap32, Rect.inter, Rect.area, fdiv]
    norm_num
  have i2 : intersectionOverUnion ⟨0, 0, 10, 10⟩ ⟨50, 50, 10, 10⟩ = fin 0 := by
    simp [intersectionOverUnion, intersectionArea, unionArea, intAdd, fitsInt, wrap32, Rect.inter, Rect.area, fdiv]
  have i3 : intersectionOverUnion ⟨100, 100, 10, 10⟩ ⟨50, 50, 10, 10⟩ = fin 0 := by
    simp [intersectionOverUnion, intersectionArea, unionArea, intAdd, fitsInt, wrap32, Rect.inter, Rect.area, fdiv]
  have g1 : gt (fin (4 / 5)) (fin 0) = true := by
    simp [gt, lt]
  have g2 : gt (fin 0) (fin (4 / 5)) = false := by
    simp [gt, lt]
    norm_num
  have g3 : gt (fin 0) (fin 0) = false := by
    simp [gt, lt]
  have m1 : getMaxResponseIOU [⟨0, 0, 10, 8⟩, ⟨50, 50, 10, 10⟩] ⟨0, 0, 10, 10⟩ =
      (fin (4 / 5), 0) := by
    simp only [getMaxResponseIOU, maxResponseLoop, i1, i2, g1, g2, if_true,
      Bool.false_eq_true, if_false]
  have m2 : getMaxResponseIOU [⟨50, 50, 10, 10⟩] ⟨100, 100, 10, 10⟩ = (fin 0, 0) := by
    simp only [getMaxResponseIOU, maxResponseLoop, i3, g3, Bool.false_eq_true, if_false]
  refine ⟨by simp, ?_, evaluateImage_accounts _ _ (by simp)⟩
  rw [evaluateImage, if_neg (by simp)]
  simp only [evaluationLoop, m1, g1, if_true, List.getElem?_cons_zero, List.eraseIdx_cons_zero,
    m2, g3, Bool.false_eq_true, if_false, List.nil_append]

/-! ## Negative mining -/

theorem negativesLoop_eq (ground_truth : List Rect) :
    ∀ (proposals : List Rect) (count : Int) (neg_rects : List Rect),
      negativesLoop ground_truth proposals count neg_rects =
        neg_rects ++
          (proposals.filter (fun p => isNegative p ground_truth)).take (4 - count).toNat := by
  intro proposals
  induction proposals with
  | nil =>
    intro count neg_rects
    simp [negativesLoop]
  | cons p ps ih =>
    intro count neg_rects
    simp only [negativesLoop]
    by_cases hc : count < 4
    · rw [if_pos hc]
      obtain ⟨k, hk⟩ : ∃ k : Nat, (4 - count).toNat = k + 1 :=
        ⟨(4 - count).toNat - 1, by omega⟩
      have hk1 : (4 - (count + 1)).toNat = k := by omega
      by_cases ha : isNegative p ground_truth = true
      · rw [if_pos ha, ih, hk1, List.filter_cons, if_pos ha, hk]
        simp
      · rw [if_neg ha, ih, List.filter_cons, if_neg ha]
    · rw [if_neg hc]
      have h0 : (4 - count).toNat = 0 := by omega
      rw [h0]
      simp

/-- The flag `negative` stays set exactly when no ground-truth box compares
`iou > 0` with the proposal. -/
theorem isNegative_eq_all (proposal : Rect) :
    ∀ ground_truth : List Rect,
      isNegative proposal ground_truth =
        ground_truth.all (fun g => !gt (intersectionOverUnion proposal g) (fin 0)) := by
  intro ground_truth
  induction ground_truth with
  | nil => rfl
  | cons g gs ih =>
    simp only [isNegative, List.all_cons]
    split
    · rename_i h
      simp [h]
    · rename_i h
      rw [Bool.not_eq_true] at h
      simp [h, ih]

/-- A proposal of area above 1000 and a ground-truth box of non-negative
width and height, whose `int` sum of areas does not overflow, never have a zero
denominator. -/
theorem unionArea_ne_zero_of_filtered (p g : Rect) (hp : 1000 < p.area)
    (hw : 0 ≤ g.width) (hh : 0 ≤ g.height) (hfit : fitsInt (p.area + g.area)) :
    unionArea p g ≠ 0 := by
  have hg : (0 : ℚ) ≤ ((g.area : Int) : ℚ) := by
    have : 0 ≤ g.area := mul_nonneg hw hh
    exact_mod_cast this
  have hpq : (1000 : ℚ) < ((p.area : Int) : ℚ) := by exact_mod_cast hp
  rcases intersectionArea_cases_of_fits p g hfit with h | ⟨h0, h1⟩
  · simp only [unionArea, h, intAdd_of_fits _ _ hfit]
    push_cast
    intro hc
    linarith
  · intro hc
    rw [hc] at h1
    linarith

theorem all_congr_mem (f g : Rect → Bool) :
    ∀ l : List Rect, (∀ x ∈ l, f x = g x) → l.all f = l.all g := by
  intro l
  induction l with
  | nil =>
    intro _
    rfl
  | cons a l ih =>
    intro h
    simp only [List.all_cons]
    rw [h a (List.mem_cons_self _ _), ih (fun x hx => h x (List.mem_cons_of_mem _ hx))]

/-- For filtered proposals and ground-truth boxes of non-negative width and
height, with no `int` sum of two areas overflowing, a proposal is flagged
negative exactly when all its IoUs are `0`, and the accepted negatives are the
first four proposals of this kind. -/
theorem negatives_of_wellformed (proposals ground_truth : List Rect)
    (hP : ∀ p ∈ proposals, 1000 < p.area)
    (hG : ∀ g ∈ ground_truth, 0 ≤ g.width ∧ 0 ≤ g.height)
    (hfit : ∀ p ∈ proposals, ∀ g ∈ ground_truth, fitsInt (p.area + g.area)) :
    negatives proposals ground_truth =
      (proposals.filter (fun p =>
        ground_truth.all (fun g => decide (intersectionOverUnion p g = fin 0)))).take 4 := by
  rw [negatives, negativesLoop_eq]
  simp only [List.nil_append, sub_zero]
  have e : (4 : Int).toNat = 4 := rfl
  rw [e]
  congr 1
  apply List.filter_congr
  intro p hp
  rw [isNegative_eq_all]
  apply all_congr_mem
  intro g hg
  obtain ⟨q, hq, hq0⟩ := iou_fin_of_union_ne_zero p g (hfit p hp g hg)
    (unionArea_ne_zero_of_filtered p g (hP p hp) (hG g hg).1 (hG g hg).2 (hfit p hp g hg))
  rw [hq]
  by_cases hz : q = 0
  · subst hz
    simp [gt, lt]
  · have hpos : 0 < q := lt_of_le_of_ne hq0 (Ne.symm hz)
    simp [gt, lt, hpos, hz]

/-- When no pattern adds a name and none throws, the `for` loop over the
patterns leaves `filenames` empty. -/
theorem globPatterns_no_match (glob : String → List String → Option (List String)) :
    ∀ pattern : List String, (∀ p ∈ pattern, glob p [] = some []) →
      globPatterns glob pattern [] = some [] := by
  intro pattern
  induction pattern with
  | nil =>
    intro _
    rfl
  | cons p ps ih =>
    intro h
    simp only [globPatterns, h p (List.mem_cons_self _ _)]
    exact ih (fun x hx => h x (List.mem_cons_of_mem _ hx))

/-- When the first pass over the patterns finds a file, `loadFiles` returns 0. -/
theorem loadFiles_found (glob : String → List String → Option (List String))
    (pattern filenames : List String) (rounds : Nat)
    (h : globPatterns glob pattern [] = some filenames) (hne : filenames ≠ []) :
    loadFiles glob pattern (rounds + 1) [] = some 0 := by
  simp only [loadFiles, h, if_true]
  cases rounds with
  | zero => simp [loadFiles, loadFilesResult, hne]
  | succ n => simp [loadFiles, loadFilesResult, hne]

/-- When the directory scan throws, `loadFiles` returns -1. -/
theorem loadFiles_exception (glob : String → List String → Option (List String))
    (pattern : List String) (rounds : Nat)
    (h : globPatterns glob pattern [] = none) :
    loadFiles glob pattern (rounds + 1) [] = some (-1) := by
  simp only [loadFiles, h, if_true]

/-- C15 (the code departs from the claim): when no pattern matches a file and
the directory scan raises no error, `loadFiles` does not return -1: every pass
of `while (filenames.empty())` leaves `filenames` empty, and after any number of
passes the loop is still running. -/
theorem loadFiles_no_match_never_returns
    (glob : String → List String → Option (List String)) (pattern : List String)
    (h : ∀ p ∈ pattern, glob p [] = some []) :
    ∀ rounds : Nat, loadFiles glob pattern rounds [] = none := by
  intro rounds
  induction rounds with
  | zero => simp [loadFiles]
  | succ n ih =>
    simp only [loadFiles, if_true, globPatterns_no_match glob pattern h]
    exact ih

theorem loadFiles_no_match_never_returns_witness :
    (∀ p ∈ ["*.png", "*.jpg"],
        (fun (_ : String) (filenames : List String) => some filenames) p [] = some []) ∧
      ∀ rounds : Nat,
        loadFiles (fun (_ : String) (filenames : List String) => some filenames)
          ["*.png", "*.jpg"] rounds [] = none :=
  ⟨fun _ _ => rfl,
    loadFiles_no_match_never_returns
      (fun (_ : String) (filenames : List String) => some filenames) ["*.png", "*.jpg"]
      (fun _ _ => rfl)⟩

/-! ## Non-maxima suppression: overlap of the kept boxes -/

/-- In the output of the specified greedy procedure no box compares
`iou > threshold` with a box behind it. -/
theorem specGreedy_pairwise (candidates : List Rect) (threshold : FloatVal) :
    ∀ (n : Nat) (order : List (Int × Nat)), order.length ≤ n →
      (specGreedy candidates threshold order).Pairwise
        (fun a b => gt (intersectionOverUnion a b) threshold = false) := by
  intro n
  induction n with
  | zero =>
    intro order hlen
    have h0 : order = [] := List.length_eq_zero.mp (Nat.le_zero.mp hlen)
    subst h0
    simp [specGreedy_nil]
  | succ n ih =>
    intro order hlen
    rcases eq_nil_or_snoc order with h0 | ⟨init, last, h0⟩
    · subst h0
      simp [specGreedy_nil]
    · subst h0
      have hlen1 : (init.filter (staysWith candidates threshold
          (candidates.getD last.2 default))).length ≤ n := by
        have := List.length_filter_le
          (staysWith candidates threshold (candidates.getD last.2 default)) init
        simp only [List.length_append, List.length_cons, List.length_nil] at hlen
        omega
      rw [specGreedy_concat]
      refine List.pairwise_cons.mpr ⟨?_, ih _ hlen1⟩
      intro b hb
      obtain ⟨js, hsub, heq⟩ := specGreedy_sublist candidates threshold _ _ (le_refl
        (init.filter (staysWith candidates threshold (candidates.getD last.2 default))).length)
      rw [heq] at hb
      obtain ⟨e, he, hbe⟩ := List.mem_map.mp hb
      have hmem : e ∈ init.filter
          (staysWith candidates threshold (candidates.getD last.2 default)) :=
        List.mem_reverse.mp (hsub.subset he)
      have hst := (List.mem_filter.mp hmem).2
      rw [← hbe]
      simpa [staysWith] using hst

/-- The zero-area candidates `[0,0,0,0]` and `[1,1,0,0]` are both kept with
threshold `0.5`, and their IoU is `NaN`, which is not less than or equal to the
threshold. -/
theorem nonMaximaSuppression_kept_overlap_counterexample :
    nonMaximaSuppression [⟨0, 0, 0, 0⟩, ⟨1, 1, 0, 0⟩] (fin (1 / 2)) =
        some [⟨1, 1, 0, 0⟩, ⟨0, 0, 0, 0⟩] ∧
      le (intersectionOverUnion ⟨1, 1, 0, 0⟩ ⟨0, 0, 0, 0⟩) (fin (1 / 2)) = false := by
  have hnan : intersectionOverUnion ⟨1, 1, 0, 0⟩ ⟨0, 0, 0, 0⟩ = nan := by
    simp [intersectionOverUnion, intersectionArea, unionArea, intAdd, fitsInt, wrap32, Rect.inter, Rect.area, fdiv]
  have hb : buildIdxs [⟨0, 0, 0, 0⟩, ⟨1, 1, 0, 0⟩] 0 [] = [(0, 0)] ++ [(1, 1)] := by decide
  have g0 : gt nan (fin (1 / 2)) = false := rfl
  constructor
  · simp only [nonMaximaSuppression, hb, List.length_cons, List.length_nil]
    rw [if_neg (by omega), nmsLoop_concat]
    simp only [List.getElem?_cons_succ, List.getElem?_cons_zero, Option.some_bind,
      List.nil_append, scan, hnan, g0, Bool.false_eq_true, if_false]
    show nmsLoop _ _ ([] ++ [(0, 0)]) _ = _
    rw [nmsLoop_concat]
    simp only [List.getElem?_cons_zero, Option.some_bind, scan, nmsLoop_nil, List.cons_append,
      List.nil_append]
  · rw [hnan]
    rfl

/-- On the runs that meet no undefined step, any two rectangles at distinct
positions of the output have an IoU that does not compare greater than the
threshold. -/
theorem nonMaximaSuppression_kept_not_gt (candidates : List Rect) (threshold : FloatVal)
    (out : List Rect) (h : nonMaximaSuppression candidates threshold = some out)
    (i j : Fin out.length) (hij : i ≠ j) :
    gt (intersectionOverUnion (out.get i) (out.get j)) threshold = false := by
  have href := nonMaximaSuppression_refines candidates threshold out h
  have hp : out.Pairwise (fun a b => gt (intersectionOverUnion a b) threshold = false) := by
    rw [href, specSuppress]
    exact specGreedy_pairwise candidates threshold _ _ (le_refl _)
  have hget := List.pairwise_iff_get.mp hp
  rcases lt_or_gt_of_ne hij with hlt | hlt
  · exact hget i j hlt
  · rw [iou_swap]
    exact hget j i hlt

theorem nonMaximaSuppression_kept_not_gt_witness :
    nonMaximaSuppression [⟨0, 0, 10, 10⟩, ⟨30, 30, 10, 10⟩] (fin (1 / 4)) =
        some [⟨30, 30, 10, 10⟩, ⟨0, 0, 10, 10⟩] ∧
      gt (intersectionOverUnion
          ([(⟨30, 30, 10, 10⟩ : Rect), ⟨0, 0, 10, 10⟩].get ⟨0, by decide⟩)
          ([(⟨30, 30, 10, 10⟩ : Rect), ⟨0, 0, 10, 10⟩].get ⟨1, by decide⟩))
        (fin (1 / 4)) = false := by
  have hiou : intersectionOverUnion ⟨30, 30, 10, 10⟩ ⟨0, 0, 10, 10⟩ = fin 0 := by
    simp [intersectionOverUnion, intersectionArea, unionArea, intAdd, fitsInt, wrap32, Rect.inter, Rect.area, fdiv]
  have hb : buildIdxs [⟨0, 0, 10, 10⟩, ⟨30, 30, 10, 10⟩] 0 [] = [(10, 0)] ++ [(40, 1)] := by
    decide
  have g0 : gt (fin 0) (fin (1 / 4)) = false := by
    simp [gt, lt]
  have hrun : nonMaximaSuppression [⟨0, 0, 10, 10⟩, ⟨30, 30, 10, 10⟩] (fin (1 / 4)) =
      some [⟨30, 30, 10, 10⟩, ⟨0, 0, 10, 10⟩] := by
    simp only [nonMaximaSuppression, hb, List.length_cons, List.length_nil]
    rw [if_neg (by omega), nmsLoop_concat]
    simp only [List.getElem?_cons_succ, List.getElem?_cons_zero, Option.some_bind,
      List.nil_append, scan, hiou, g0, Bool.false_eq_true, if_false]
    show nmsLoop _ _ ([] ++ [(10, 0)]) _ = _
    rw [nmsLoop_concat]
    simp only [List.getElem?_cons_zero, Option.some_bind, scan, nmsLoop_nil, List.cons_append,
      List.nil_append]
  exact ⟨hrun, nonMaximaSuppression_kept_not_gt _ _ _ hrun ⟨0, by decide⟩ ⟨1, by decide⟩
    (by decide)⟩

/-! ## Non-maxima suppression: the step back of the iterator -/

/-- C17 (the code departs from the claim): on the candidates `[0,0,10,10]`,
`[0,1,10,10]`, `[0,2,10,10]` with threshold `0.5` the first round keeps
`[0,2,10,10]` and its scan starts on the entry of `[0,0,10,10]`, the first of
the working set, whose IoU `80/120` exceeds the threshold: the entry is erased
while first, and `i--` steps back from `begin()` of the remaining set. -/
theorem scan_erases_first_entry :
    buildIdxs [⟨0, 0, 10, 10⟩, ⟨0, 1, 10, 10⟩, ⟨0, 2, 10, 10⟩] 0 [] =
        [(10, 0), (11, 1), (12, 2)] ∧
      staysWith [⟨0, 0, 10, 10⟩, ⟨0, 1, 10, 10⟩, ⟨0, 2, 10, 10⟩] (fin (1 / 2))
        ⟨0, 2, 10, 10⟩ (10, 0) = false ∧
      scan [⟨0, 0, 10, 10⟩, ⟨0, 1, 10, 10⟩, ⟨0, 2, 10, 10⟩] ⟨0, 2, 10, 10⟩ (fin (1 / 2)) []
        [(10, 0), (11, 1)] = none ∧
      nonMaximaSuppression [⟨0, 0, 10, 10⟩, ⟨0, 1, 10, 10⟩, ⟨0, 2, 10, 10⟩] (fin (1 / 2)) =
        none := by
  have hb : buildIdxs [⟨0, 0, 10, 10⟩, ⟨0, 1, 10, 10⟩, ⟨0, 2, 10, 10⟩] 0 [] =
      [(10, 0), (11, 1), (12, 2)] := by decide
  have hiou : intersectionOverUnion ⟨0, 2, 10, 10⟩ ⟨0, 0, 10, 10⟩ = fin (2 / 3) := by
    simp [intersectionOverUnion, intersectionArea, unionArea, intAdd, fitsInt, wrap32, Rect.inter, Rect.area, fdiv]
    norm_num
  have g1 : gt (fin (2 / 3)) (fin (1 / 2)) = true := by
    simp [gt, lt]
    norm_num
  have e0 : List.getD [(⟨0, 0, 10, 10⟩ : Rect), ⟨0, 1, 10, 10⟩, ⟨0, 2, 10, 10⟩] 0 default =
      ⟨0, 0, 10, 10⟩ := rfl
  have hscan : scan [⟨0, 0, 10, 10⟩, ⟨0, 1, 10, 10⟩, ⟨0, 2, 10, 10⟩] ⟨0, 2, 10, 10⟩
      (fin (1 / 2)) [] [(10, 0), (11, 1)] = none := by
    simp only [scan, List.getElem?_cons_zero, hiou, g1, if_true]
  refine ⟨hb, ?_, hscan, ?_⟩
  · simp only [staysWith, e0, hiou, g1, Bool.not_true]
  · simp only [nonMaximaSuppression, hb, List.length_cons, List.length_nil]
    rw [if_neg (by omega)]
    show nmsLoop _ _ ([(10, 0), (11, 1)] ++ [(12, 2)]) [] = none
    rw [nmsLoop_concat]
    simp only [List.getElem?_cons_succ, List.getElem?_cons_zero, Option.some_bind, hscan,
      Option.none_bind]

/-! ## Non-maxima suppression with the undefined step resolved -/

theorem nmsLoopWith_nil (landing : List (Int × Nat) → Option Nat) (pred_boxes : List Rect)
    (threshold : FloatVal) (final_boxes : List Rect) :
    nmsLoopWith landing pred_boxes threshold [] final_boxes = some final_boxes := by
  rw [nmsLoopWith]
  split
  · rfl
  · rename_i last hl
    simp at hl

theorem nmsLoopWith_concat (landing : List (Int × Nat) → Option Nat) (pred_boxes : List Rect)
    (threshold : FloatVal) (init : List (Int × Nat)) (last : Int × Nat)
    (final_boxes : List Rect) :
    nmsLoopWith landing pred_boxes threshold (init ++ [last]) final_boxes =
      (pred_boxes[last.2]?).bind (fun rect1 =>
        (scanWith landing pred_boxes rect1 threshold 0 [] init).bind (fun idxs1 =>
          nmsLoopWith landing pred_boxes threshold idxs1 (final_boxes ++ [rect1]))) := by
  rw [nmsLoopWith]
  split
  · rename_i hl
    simp at hl
  · rename_i last1 hl
    have hl1 : last = last1 := by
      simpa [List.getLast?_append] using hl
    subst hl1
    split
    · rename_i hb
      simp [hb]
    · rename_i rect1 hb
      simp only [hb, Option.some_bind, List.dropLast_concat]
      split
      · rename_i hs
        simp only [List.dropLast_concat] at hs
        simp [hs]
      · rename_i idxs1 hs
        simp only [List.dropLast_concat] at hs
        simp [hs]

/-- Whatever the iterator does at the undefined step, a scan only removes
entries: what it leaves are the entries in front and a sub-list of the others. -/
theorem scanWith_sublist (landing : List (Int × Nat) → Option Nat) (pred_boxes : List Rect)
    (rect1 : Rect) (threshold : FloatVal) :
    ∀ (rest : List (Int × Nat)) (skip : Nat) (before out : List (Int × Nat)),
      scanWith landing pred_boxes rect1 threshold skip before rest = some out →
      ∃ kept, kept.Sublist rest ∧ out = before ++ kept := by
  intro rest
  induction rest with
  | nil =>
    intro skip before out h
    simp only [scanWith, Option.some.injEq] at h
    exact ⟨[], List.Sublist.refl _, by simp [h]⟩
  | cons e rest ih =>
    intro skip before out h
    cases skip with
    | succ k =>
      simp only [scanWith] at h
      obtain ⟨kept, hsub, hout⟩ := ih _ _ _ h
      exact ⟨e :: kept, hsub.cons₂ e, by simp [hout]⟩
    | zero =>
      simp only [scanWith] at h
      split at h
      · exact absurd h (by simp)
      · split at h
        · split at h
          · split at h
            · exact absurd h (by simp)
            · obtain ⟨kept, hsub, hout⟩ := ih _ _ _ h
              rename_i hbefore _ _ _
              exact ⟨kept, hsub.cons e, by simp [hout, hbefore]⟩
          · obtain ⟨kept, hsub, hout⟩ := ih _ _ _ h
            exact ⟨kept, hsub.cons e, hout⟩
        · obtain ⟨kept, hsub, hout⟩ := ih _ _ _ h
          exact ⟨e :: kept, hsub.cons₂ e, by simp [hout]⟩

/-- Whatever the iterator does at the undefined step, the boxes pushed by the
loop are boxes of entries of the working set, each entry used at most once. -/
theorem nmsLoopWith_selection (landing : List (Int × Nat) → Option Nat)
    (pred_boxes : List Rect) (threshold : FloatVal) :
    ∀ (n : Nat) (idxs : List (Int × Nat)) (acc out : List Rect), idxs.length ≤ n →
      nmsLoopWith landing pred_boxes threshold idxs acc = some out →
      ∃ js : List (Int × Nat), js.Sublist idxs.reverse ∧
        out = acc ++ js.map (fun e => pred_boxes.getD e.2 default) ∧
        ∀ e ∈ js, e.2 < pred_boxes.length := by
  intro n
  induction n with
  | zero =>
    intro idxs acc out hlen h
    have h0 : idxs = [] := List.length_eq_zero.mp (Nat.le_zero.mp hlen)
    subst h0
    rw [nmsLoopWith_nil] at h
    simp only [Option.some.injEq] at h
    exact ⟨[], by simp, by simp [h], by simp⟩
  | succ n ih =>
    intro idxs acc out hlen h
    rcases eq_nil_or_snoc idxs with h0 | ⟨init, last, h0⟩
    · subst h0
      rw [nmsLoopWith_nil] at h
      simp only [Option.some.injEq] at h
      exact ⟨[], by simp, by simp [h], by simp⟩
    · subst h0
      rw [nmsLoopWith_concat] at h
      cases hb : pred_boxes[last.2]? with
      | none => simp [hb] at h
      | some rect1 =>
        simp only [hb, Option.some_bind] at h
        cases hs : scanWith landing pred_boxes rect1 threshold 0 [] init with
        | none => simp [hs] at h
        | some idxs1 =>
          simp only [hs, Option.some_bind] at h
          obtain ⟨kept, hkept, hidxs1⟩ := scanWith_sublist _ _ _ _ _ _ _ _ hs
          simp only [List.nil_append] at hidxs1
          rw [hidxs1] at h
          have hlen1 : kept.length ≤ n := by
            have := hkept.length_le
            simp only [List.length_append, List.length_cons, List.length_nil] at hlen
            omega
          obtain ⟨js, hjs, hout, hvalid⟩ := ih kept _ _ hlen1 h
          refine ⟨last :: js, ?_, ?_, ?_⟩
          · rw [List.reverse_append]
            simp only [List.reverse_cons, List.reverse_nil, List.nil_append,
              List.singleton_append]
            exact List.Sublist.cons₂ _ (hjs.trans hkept.reverse)
          · rw [hout]
            simp [hb]
          · intro e he
            rcases List.mem_cons.mp he with he | he
            · rw [he]
              exact lt_length_of_getElem? hb
            · exact hvalid e he

/-- A scan that meets no undefined step runs the same in both embeddings. -/
theorem scanWith_of_scan (landing : List (Int × Nat) → Option Nat) (pred_boxes : List Rect)
    (rect1 : Rect) (threshold : FloatVal) :
    ∀ (rest before out : List (Int × Nat)),
      scan pred_boxes rect1 threshold before rest = some out →
      scanWith landing pred_boxes rect1 threshold 0 before rest = some out := by
  intro rest
  induction rest with
  | nil =>
    intro before out h
    simpa [scan, scanWith] using h
  | cons e rest ih =>
    intro before out h
    cases hb : pred_boxes[e.2]? with
    | none => simp [scan, hb] at h
    | some rect2 =>
      simp only [scan, hb] at h
      simp only [scanWith, hb]
      split at h
      · rename_i hgt
        rw [if_pos hgt]
        split at h
        · exact absurd h (by simp)
        · rename_i hne
          rw [if_neg hne]
          exact ih _ _ h
      · rename_i hgt
        rw [if_neg hgt]
        exact ih _ _ h

/-- A run of the loop that meets no undefined step is the same in both
embeddings. -/
theorem nmsLoopWith_of_nmsLoop (landing : List (Int × Nat) → Option Nat)
    (pred_boxes : List Rect) (threshold : FloatVal) :
    ∀ (n : Nat) (idxs : List (Int × Nat)) (acc out : List Rect), idxs.length ≤ n →
      nmsLoop pred_boxes threshold idxs acc = some out →
      nmsLoopWith landing pred_boxes threshold idxs acc = some out := by
  intro n
  induction n with
  | zero =>
    intro idxs acc out hlen h
    have h0 : idxs = [] := List.length_eq_zero.mp (Nat.le_zero.mp hlen)
    subst h0
    rw [nmsLoop_nil] at h
    rw [nmsLoopWith_nil]
    exact h
  | succ n ih =>
    intro idxs acc out hlen h
    rcases eq_nil_or_snoc idxs with h0 | ⟨init, last, h0⟩
    · subst h0
      rw [nmsLoop_nil] at h
      rw [nmsLoopWith_nil]
      exact h
    · subst h0
      rw [nmsLoop_concat] at h
      rw [nmsLoopWith_concat]
      cases hb : pred_boxes[last.2]? with
      | none => simp [hb] at h
      | some rect1 =>
        simp only [hb, Option.some_bind] at h ⊢
        cases hs : scan pred_boxes rect1 threshold [] init with
        | none => simp [hs] at h
        | some idxs1 =>
          simp only [hs, Option.some_bind] at h
          rw [scanWith_of_scan landing _ _ _ _ _ _ hs]
          simp only [Option.some_bind]
          have hlen1 : idxs1.length ≤ n := by
            obtain ⟨h1, _⟩ := scan_eq_some _ _ _ _ _ _ hs
            rw [h1]
            have := List.length_filter_le (staysWith pred_boxes threshold rect1) init
            simp only [List.length_append, List.length_cons, List.length_nil] at hlen ⊢
            omega
          exact ih _ _ _ hlen1 h

/-- Where `nonMaximaSuppression` is defined, every compiled program returns
its result. -/
theorem nonMaximaSuppressionWith_of_defined (landing : List (Int × Nat) → Option Nat)
    (candidates : List Rect) (threshold : FloatVal) (out : List Rect)
    (h : nonMaximaSuppression candidates threshold = some out) :
    nonMaximaSuppressionWith landing candidates threshold = some out := by
  unfold nonMaximaSuppression at h
  unfold nonMaximaSuppressionWith
  split
  · rename_i h0
    rw [if_pos h0] at h
    exact h
  · rename_i h0
    rw [if_neg h0] at h
    exact nmsLoopWith_of_nmsLoop landing candidates threshold _ _ _ _ (le_refl _) h

/-- The run of a compiled program whose displaced iterator lands on `end()`, on
the candidates `[0,0,10,10]`, `[0,1,10,10]`, `[0,2,10,10]` with threshold `0.5`:
the first scan erases the entry of `[0,0,10,10]` at `begin()` and ends without
examining `[0,1,10,10]`, which the second round keeps. -/
theorem nonMaximaSuppressionWith_skips_entry :
    nonMaximaSuppressionWith (fun rest => some rest.length)
        [⟨0, 0, 10, 10⟩, ⟨0, 1, 10, 10⟩, ⟨0, 2, 10, 10⟩] (fin (1 / 2)) =
      some [⟨0, 2, 10, 10⟩, ⟨0, 1, 10, 10⟩] := by
  have hb : buildIdxs [⟨0, 0, 10, 10⟩, ⟨0, 1, 10, 10⟩, ⟨0, 2, 10, 10⟩] 0 [] =
      [(10, 0), (11, 1)] ++ [(12, 2)] := by decide
  have hiou : intersectionOverUnion ⟨0, 2, 10, 10⟩ ⟨0, 0, 10, 10⟩ = fin (2 / 3) := by
    simp [intersectionOverUnion, intersectionArea, unionArea, intAdd, fitsInt, wrap32, Rect.inter, Rect.area, fdiv]
    norm_num
  have g1 : gt (fin (2 / 3)) (fin (1 / 2)) = true := by
    simp [gt, lt]
    norm_num
  simp only [nonMaximaSuppressionWith, hb, List.length_cons, List.length_nil]
  rw [if_neg (by omega), nmsLoopWith_concat]
  simp only [List.getElem?_cons_succ, List.getElem?_cons_zero, Option.some_bind, scanWith,
    hiou, g1, if_true, List.length_cons, List.length_nil, List.nil_append]
  show nmsLoopWith _ _ _ ([] ++ [(11, 1)]) _ = _
  rw [nmsLoopWith_concat]
  simp only [List.getElem?_cons_succ, List.getElem?_cons_zero, Option.some_bind, scanWith,
    nmsLoopWith_nil, List.cons_append, List.nil_append]

/-- A scan of a program that does not abort at the undefined step completes. -/
theorem scanWith_returns (landing : List (Int × Nat) → Option Nat) (pred_boxes : List Rect)
    (rect1 : Rect) (threshold : FloatVal) (hland : ∀ rest, landing rest ≠ none) :
    ∀ (rest : List (Int × Nat)) (skip : Nat) (before : List (Int × Nat)),
      (∀ e ∈ rest, e.2 < pred_boxes.length) →
      ∃ out, scanWith landing pred_boxes rect1 threshold skip before rest = some out := by
  intro rest
  induction rest with
  | nil =>
    intro skip before _
    exact ⟨before, by simp [scanWith]⟩
  | cons e rest ih =>
    intro skip before hv
    have hrest : ∀ x ∈ rest, x.2 < pred_boxes.length :=
      fun x hx => hv x (List.mem_cons_of_mem _ hx)
    cases skip with
    | succ k =>
      simp only [scanWith]
      exact ih _ _ hrest
    | zero =>
      have hlt := hv e (List.mem_cons_self _ _)
      have hb : pred_boxes[e.2]? = some (pred_boxes[e.2]) := List.getElem?_eq_getElem hlt
      simp only [scanWith, hb]
      split
      · split
        · cases hl : landing rest with
          | none => exact absurd hl (hland rest)
          | some k =>
            simp only
            exact ih _ _ hrest
        · exact ih _ _ hrest
      · exact ih _ _ hrest

/-- The loop of a program that does not abort at the undefined step completes. -/
theorem nmsLoopWith_returns (landing : List (Int × Nat) → Option Nat)
    (pred_boxes : List Rect) (threshold : FloatVal) (hland : ∀ rest, landing rest ≠ none) :
    ∀ (n : Nat) (idxs : List (Int × Nat)) (acc : List Rect), idxs.length ≤ n →
      (∀ e ∈ idxs, e.2 < pred_boxes.length) →
      ∃ out, nmsLoopWith landing pred_boxes threshold idxs acc = some out := by
  intro n
  induction n with
  | zero =>
    intro idxs acc hlen _
    have h0 : idxs = [] := List.length_eq_zero.mp (Nat.le_zero.mp hlen)
    subst h0
    exact ⟨acc, nmsLoopWith_nil _ _ _ _⟩
  | succ n ih =>
    intro idxs acc hlen hv
    rcases eq_nil_or_snoc idxs with h0 | ⟨init, last, h0⟩
    · subst h0
      exact ⟨acc, nmsLoopWith_nil _ _ _ _⟩
    · subst h0
      have hlt := hv last (by simp)
      have hb : pred_boxes[last.2]? = some (pred_boxes[last.2]) := List.getElem?_eq_getElem hlt
      have hinit : ∀ e ∈ init, e.2 < pred_boxes.length := fun e he => hv e (by simp [he])
      obtain ⟨idxs1, hs⟩ := scanWith_returns landing pred_boxes pred_boxes[last.2] threshold
        hland init 0 [] hinit
      obtain ⟨kept, hkept, hidxs1⟩ := scanWith_sublist _ _ _ _ _ _ _ _ hs
      simp only [List.nil_append] at hidxs1
      rw [nmsLoopWith_concat, hb]
      simp only [Option.some_bind, hs]
      refine ih idxs1 _ ?_ ?_
      · rw [hidxs1]
        have := hkept.length_le
        simp only [List.length_append, List.length_cons, List.length_nil] at hlen
        omega
      · intro e he
        rw [hidxs1] at he
        exact hinit e (hkept.subset he)

/-- C4: whatever a compiled program does at the undefined step of the scan, it
returns a list unless it aborts there, and whenever it returns, the output is a
selection of input elements without repetition: an injective map `f` from
output positions to input indices satisfies `output[k] = candidates[f k]` for
every `k`. -/
theorem nonMaximaSuppressionWith_injective_selection
    (landing : List (Int × Nat) → Option Nat) (candidates : List Rect)
    (threshold : FloatVal) :
    ((∀ rest, landing rest ≠ none) →
        ∃ out, nonMaximaSuppressionWith landing candidates threshold = some out) ∧
      ∀ out, nonMaximaSuppressionWith landing candidates threshold = some out →
        ∃ f : Fin out.length → Fin candidates.length,
          Function.Injective f ∧ ∀ k, out.get k = candidates.get (f k) := by
  constructor
  · intro hland
    unfold nonMaximaSuppressionWith
    split
    · exact ⟨[], rfl⟩
    · exact nmsLoopWith_returns landing candidates threshold hland _ _ _ (le_refl _)
        (buildIdxs_valid candidates)
  · intro out h
    unfold nonMaximaSuppressionWith at h
    split at h
    · simp only [Option.some.injEq] at h
      subst h
      exact ⟨fun k => k.elim0, fun k => k.elim0, fun k => k.elim0⟩
    · obtain ⟨js, hsub, hout, hvalid⟩ :=
        nmsLoopWith_selection landing candidates threshold _ _ _ _ (le_refl _) h
      rw [List.nil_append] at hout
      subst hout
      refine injective_selection_of_entries candidates js ?_ hvalid
      have hnd : (List.map Prod.snd (buildIdxs candidates 0 []).reverse).Nodup := by
        rw [List.map_reverse, List.nodup_reverse]
        exact buildIdxs_nodup candidates
      exact hnd.sublist (hsub.map Prod.snd)

theorem nonMaximaSuppressionWith_injective_selection_witness :
    (∀ rest : List (Int × Nat), (fun r : List (Int × Nat) => some r.length) rest ≠ none) ∧
      nonMaximaSuppressionWith (fun rest => some rest.length)
        [⟨0, 0, 10, 10⟩, ⟨0, 1, 10, 10⟩, ⟨0, 2, 10, 10⟩] (fin (1 / 2)) =
        some [⟨0, 2, 10, 10⟩, ⟨0, 1, 10, 10⟩] ∧
      ∃ f : Fin [(⟨0, 2, 10, 10⟩ : Rect), ⟨0, 1, 10, 10⟩].length →
          Fin [(⟨0, 0, 10, 10⟩ : Rect), ⟨0, 1, 10, 10⟩, ⟨0, 2, 10, 10⟩].length,
        Function.Injective f ∧
          ∀ k, [(⟨0, 2, 10, 10⟩ : Rect), ⟨0, 1, 10, 10⟩].get k =
            [(⟨0, 0, 10, 10⟩ : Rect), ⟨0, 1, 10, 10⟩, ⟨0, 2, 10, 10⟩].get (f k) :=
  ⟨fun _ => by simp, nonMaximaSuppressionWith_skips_entry,
    (nonMaximaSuppressionWith_injective_selection _ _ _).2 _
      nonMaximaSuppressionWith_skips_entry⟩

/-- C16 (the code departs from the claim): on the candidates `[0,0,10,10]`,
`[0,1,10,10]`, `[0,2,10,10]` with threshold `0.5` the scan of the first round
erases the entry at `begin()` and steps back from it; the compiled program,
whose iterator then lands on `end()`, never compares `[0,1,10,10]` with the kept
`[0,2,10,10]` and returns both, although their IoU `9/11` exceeds the
threshold. -/
theorem nonMaximaSuppressionWith_keeps_overlapping_pair :
    nonMaximaSuppressionWith (fun rest => some rest.length)
        [⟨0, 0, 10, 10⟩, ⟨0, 1, 10, 10⟩, ⟨0, 2, 10, 10⟩] (fin (1 / 2)) =
        some [⟨0, 2, 10, 10⟩, ⟨0, 1, 10, 10⟩] ∧
      intersectionOverUnion ⟨0, 2, 10, 10⟩ ⟨0, 1, 10, 10⟩ = fin (9 / 11) ∧
      gt (intersectionOverUnion ⟨0, 2, 10, 10⟩ ⟨0, 1, 10, 10⟩) (fin (1 / 2)) = true ∧
      le (intersectionOverUnion ⟨0, 2, 10, 10⟩ ⟨0, 1, 10, 10⟩) (fin (1 / 2)) = false := by
  have hiou : intersectionOverUnion ⟨0, 2, 10, 10⟩ ⟨0, 1, 10, 10⟩ = fin (9 / 11) := by
    simp [intersectionOverUnion, intersectionArea, unionArea, intAdd, fitsInt, wrap32, Rect.inter, Rect.area, fdiv]
    norm_num
  refine ⟨nonMaximaSuppressionWith_skips_entry, hiou, ?_, ?_⟩
  · rw [hiou]
    simp [gt, lt]
    norm_num
  · rw [hiou]
    simp [le]
    norm_num

end BoatDetector
